import Mathlib

/-!
Verification of the pomelo suffix-array index service.

Bytes are modelled as natural numbers (all values produced are < 256).
Pure Go functions from the repository are translated into executable Lean
definitions; the external library routines the repository delegates to
(`index/suffixarray`, `hash/crc32`, the persisted-store format) are modelled
from the specification, each marked in its doc comment.
-/

set_option maxHeartbeats 1000000
set_option maxRecDepth 2000

namespace Pomelo

/-- The record delimiter byte (Go constant `delimiter = '\x00'`). -/
def delimiter : Nat := 0

/-- The match cap (Go constant `maxLookup = 2048`). -/
def maxLookup : Nat := 2048

/-- Byte of `l` at index `i`; all uses in the development index in range,
so the default `0` is never observable where it matters. -/
def byteAt (l : List Nat) (i : Nat) : Nat := l.getD i 0

/-- Go slice `l[a:b]`. -/
def slice (l : List Nat) (a b : Nat) : List Nat := (l.drop a).take (b - a)

/-- `startsWith l p` is true iff `p` is an initial segment of `l`. -/
def startsWith : List Nat → List Nat → Bool
  | _, [] => true
  | [], _ :: _ => false
  | a :: as, p :: ps => a == p && startsWith as ps

/-- The pattern `p` occurs at offset `i` of `data`. -/
def matchesAt (data : List Nat) (i : Nat) (p : List Nat) : Bool :=
  startsWith (data.drop i) p

/-- Lexicographic byte-sequence order. -/
def leBytes : List Nat → List Nat → Bool
  | [], _ => true
  | _ :: _, [] => false
  | a :: as, b :: bs => if a < b then true else if b < a then false else leBytes as bs

/-- The suffix of `data` at `i` is lexicographically at most the one at `j`. -/
def suffixLE (data : List Nat) (i j : Nat) : Prop :=
  leBytes (data.drop i) (data.drop j) = true

instance (data : List Nat) : DecidableRel (suffixLE data) :=
  fun _ _ => instDecidableEqBool _ _

/-- Modelled from the spec (§4.2, §3): the suffix array is the permutation of
`[0, len(buffer))` sorted by lexicographic order of the suffix starting at each
offset.  The repository obtains it from the external `index/suffixarray`
library (`suffixarray.New`). -/
def suffixArray (data : List Nat) : List Nat :=
  List.insertionSort (suffixLE data) (List.range data.length)

/-- Modelled from the spec (§4.4 steps 1–2): the external library call
`index.Lookup(pattern, maxLookup)` returns the suffix-array entries whose
suffix starts with the pattern, capped at `maxLookup` offsets. -/
def saLookup (data sa p : List Nat) : List Nat :=
  (sa.filter (fun i => matchesAt data i p)).take maxLookup

/-- Number of offsets of the whole buffer at which `p` matches. -/
def matchCount (data p : List Nat) : Nat :=
  (List.range data.length).countP (fun i => matchesAt data i p)

/-- Backward scan of `indexLookup`:
`for ; start > 0 && indexData[start-1] != delimiter; start-- {}`. -/
def scanBack (data : List Nat) : Nat → Nat
  | 0 => 0
  | s + 1 => if byteAt data s ≠ delimiter then scanBack data s else s + 1

/-- Fuel-driven loop of `scanFwd`; fuel `data.length - e` is always enough,
and when it is exhausted the loop guard is false anyway. -/
def scanFwdAux (data : List Nat) : Nat → Nat → Nat
  | 0, e => e
  | fuel + 1, e =>
    if e < data.length ∧ byteAt data e ≠ delimiter then scanFwdAux data fuel (e + 1) else e

/-- Forward scan of `indexLookup`:
`for ; end < len(indexData) && indexData[end] != delimiter; end++ {}`. -/
def scanFwd (data : List Nat) (e : Nat) : Nat := scanFwdAux data (data.length - e) e

/-- Fuel-driven loop of `consume`; fuel `data.length - e` is always enough. -/
def consumeAux (data : List Nat) : Nat → Nat → Nat
  | 0, e => e
  | fuel + 1, e =>
    if e + 1 < data.length ∧ byteAt data (e + 1) = delimiter then consumeAux data fuel (e + 1)
    else e

/-- Trailing-delimiter consumption of `indexLookup`:
`for ; end+1 < len(indexData) && indexData[end+1] == delimiter; end++ {}`. -/
def consume (data : List Nat) (e : Nat) : Nat := consumeAux data (data.length - e) e

/-- Fuel-driven loop of `uvarintBytes`; fuel `x` is always enough. -/
def uvarintBytesAux : Nat → Nat → List Nat
  | 0, x => [x]
  | fuel + 1, x =>
    if x < 128 then [x] else (x % 128 + 128) :: uvarintBytesAux fuel (x / 128)

/-- Go `binary.PutUvarint` byte sequence of `x` (7-bit groups, little-endian,
all bytes except the last carrying the continuation bit). -/
def uvarintBytes (x : Nat) : List Nat := uvarintBytesAux x x

/-- Go `binary.PutUvarint(valBuf, x)` writes the varint of `x` over the start of
the reused 10-byte buffer `prev`, leaving the remaining bytes untouched. -/
def writeSlot (x : Nat) (prev : List Nat) : List Nat :=
  uvarintBytes x ++ prev.drop (uvarintBytes x).length

/-- Loop of Go `binary.Uvarint`; returns the decoded value (the error/length
result is discarded by the caller, so failures decode as `0` exactly as the
ignored-error Go call site observes). -/
def uvarintLoop : List Nat → Nat → Nat → Nat → Nat
  | [], _, _, _ => 0
  | b :: rest, i, s, x =>
    if i = 10 then 0
    else if b < 128 then
      if i = 9 ∧ 1 < b then 0
      else x ||| (b <<< s) % 2 ^ 64
    else uvarintLoop rest (i + 1) (s + 7) (x ||| ((b % 128) <<< s) % 2 ^ 64)

/-- Go `binary.Uvarint` (value component). -/
def uvarint (l : List Nat) : Nat := uvarintLoop l 0 0 0

/-- Result item of a lookup (Go `type Item struct { Query string; Value uint64 }`). -/
structure Item where
  query : List Nat
  value : Nat
deriving DecidableEq, Repr

/-- Record-boundary recovery for one matched offset: the loop body of
`indexLookup`, including the defensive skip when the recovered segment is
shorter than `binary.MaxVarintLen64`. -/
def recoverItem (data : List Nat) (offset : Nat) : Option Item :=
  let start := scanBack data offset
  let e := consume data (scanFwd data offset)
  if e - offset < 10 then none
  else some ⟨slice data start (e - 10), uvarint (slice data (e - 10) e)⟩

/-- Go `indexLookup`: look up the capped match offsets, then recover the
enclosing record of each, skipping degenerate boundaries. -/
def indexLookup (data sa search : List Nat) : List Item :=
  (saLookup data sa search).filterMap (recoverItem data)

/-- Go `bytes.SplitN(line, []byte("\t"), 2)`: the bytes before the first tab,
and, when a tab is present, the bytes after it. -/
def splitTab : List Nat → List Nat × Option (List Nat)
  | [] => ([], none)
  | b :: rest =>
    if b = 9 then ([], some rest)
    else
      let p := splitTab rest
      (b :: p.1, p.2)

/-- Go `strconv.ParseUint(s, 10, 32)`: decimal digits only, non-empty, value
below `2^32`; `none` models a non-nil error. -/
def parseUint32 (s : List Nat) : Option Nat :=
  if s = [] then none
  else
    s.foldl
      (fun acc b =>
        match acc with
        | none => none
        | some n =>
          if 48 ≤ b ∧ b ≤ 57 then
            if n * 10 + (b - 48) < 2 ^ 32 then some (n * 10 + (b - 48)) else none
          else none)
      (some 0)

/-- Removes leading delimiter bytes. -/
def trimLead : List Nat → List Nat
  | [] => []
  | b :: rest => if b = delimiter then trimLead rest else b :: rest

/-- Go `bytes.Trim(key, string(delimiter))`: strips delimiter bytes from both
ends (interior delimiter bytes are kept). -/
def trimDelim (l : List Nat) : List Nat :=
  (trimLead (trimLead l).reverse).reverse

/-- Continuation of `processLine` on the parse result of the weight text:
parse failures and weights below `minValue` are skipped, then the length
check applies. -/
def processParsed (maxLength minValue : Nat) (k : List Nat) :
    Option Nat → Option (List Nat × Nat)
  | none => none
  | some v =>
    if v < minValue then none
    else if k.length > maxLength then none
    else some (k, v)

/-- Continuation of `processLine` on the optional weight text: a line with no
tab gets weight 0 with no minimum-value check. -/
def processTail (maxLength minValue : Nat) (k : List Nat) :
    Option (List Nat) → Option (List Nat × Nat)
  | none => if k.length > maxLength then none else some (k, 0)
  | some wtxt => processParsed maxLength minValue k (parseUint32 wtxt)

/-- One scanner iteration of Go `buildIndex`: decide whether the line is
retained and with which raw key and weight.  A line with no tab gets weight 0
with no minimum-value check; a line with a tab must parse as a decimal
`uint32` at least `minValue`; in both cases the raw key must be at most
`maxLength` bytes. -/
def processLine (maxLength minValue : Nat) (line : List Nat) : Option (List Nat × Nat) :=
  processTail maxLength minValue (splitTab line).1 (splitTab line).2

/-- A retained record: normalized key and weight. -/
structure Rec where
  key : List Nat
  w : Nat
deriving DecidableEq, Repr

/-- Loop body of Go `buildIndex`: on a retained line, write the varint into the
reused `valBuf`, then append normalized-trimmed key, the whole 10-byte
`valBuf`, and one delimiter byte to the buffer.  `nfc` stands for the external
`norm.NFC.Bytes` normalization. -/
def buildStep (nfc : List Nat → List Nat) (maxLength minValue : Nat)
    (st : Nat × List Nat × List Nat) (line : List Nat) : Nat × List Nat × List Nat :=
  match processLine maxLength minValue line with
  | none => st
  | some (k, v) =>
    let valBuf := writeSlot v st.2.2
    (st.1 + 1, st.2.1 ++ nfc (trimDelim k) ++ valBuf ++ [delimiter], valBuf)

/-- Go `buildIndex` scanner loop: counter, output buffer and the reused
`valBuf` (initially `make([]byte, binary.MaxVarintLen64)`, i.e. 10 zero
bytes). -/
def buildIndex (nfc : List Nat → List Nat) (maxLength minValue : Nat)
    (lines : List (List Nat)) : Nat × List Nat × List Nat :=
  lines.foldl (buildStep nfc maxLength minValue) (0, [], List.replicate 10 0)

/-- Retained-record count of a build. -/
def buildCount (nfc : List Nat → List Nat) (maxLength minValue : Nat)
    (lines : List (List Nat)) : Nat :=
  (buildIndex nfc maxLength minValue lines).1

/-- Output buffer of a build. -/
def buildBuffer (nfc : List Nat → List Nat) (maxLength minValue : Nat)
    (lines : List (List Nat)) : List Nat :=
  (buildIndex nfc maxLength minValue lines).2.1

/-- The retained records of a build, with normalized-trimmed keys. -/
def retainedRecs (nfc : List Nat → List Nat) (maxLength minValue : Nat)
    (lines : List (List Nat)) : List Rec :=
  lines.filterMap fun line =>
    (processLine maxLength minValue line).map fun kv => ⟨nfc (trimDelim kv.1), kv.2⟩

/-- Buffer contribution of one record when its varint slot is zero-padded
(no stale bytes): key, varint, zero padding to 10 bytes, delimiter. -/
def encRec (r : Rec) : List Nat :=
  r.key ++ uvarintBytes r.w ++ List.replicate (10 - (uvarintBytes r.w).length) 0 ++ [delimiter]

/-- Concatenated zero-padded record encodings. -/
def recsData (rs : List Rec) : List Nat := (rs.map encRec).flatten

/-- Buffer produced by a record list threading the reused varint buffer
through consecutive records, as the Go loop does. -/
def encodeWithSlots : List Rec → List Nat → List Nat
  | [], _ => []
  | r :: rs, prev =>
    let s := writeSlot r.w prev
    (r.key ++ s ++ [delimiter]) ++ encodeWithSlots rs s

/-- A record whose encoding the boundary-recovery of `indexLookup` can always
invert: non-empty key free of delimiter bytes, positive weight below `2^32`
(the bound enforced by `ParseUint(..., 10, 32)`). -/
def wfRec (r : Rec) : Prop :=
  r.key ≠ [] ∧ (∀ b ∈ r.key, b ≠ 0) ∧ 0 < r.w ∧ r.w < 2 ^ 32

instance (r : Rec) : Decidable (wfRec r) := by
  unfold wfRec; infer_instance

/-- An index: the immutable buffer / suffix-array pair. -/
structure PIndex where
  data : List Nat
  sa : List Nat
deriving DecidableEq, Repr

/-- Index built from a buffer, as `suffixarray.New(buffer.Bytes())`. -/
def buildPIndex (buffer : List Nat) : PIndex := ⟨buffer, suffixArray buffer⟩

/-- Store-level failures: `ioError` for unreadable/truncated input, and
`formatError` for malformed persisted data. -/
inductive StoreErr where
  | ioError
  | formatError
deriving DecidableEq, Repr

/-- The 4-byte magic "PMLO". -/
def pmloMagic : List Nat := [80, 77, 76, 79]

/-- 8-byte unsigned little-endian encoding. -/
def le64 (n : Nat) : List Nat :=
  [n % 256, n / 256 % 256, n / 256 ^ 2 % 256, n / 256 ^ 3 % 256,
   n / 256 ^ 4 % 256, n / 256 ^ 5 % 256, n / 256 ^ 6 % 256, n / 256 ^ 7 % 256]

/-- Value of the first 8 bytes of `l`, little-endian. -/
def readLe64 (l : List Nat) : Nat :=
  byteAt l 0 + 256 * (byteAt l 1 + 256 * (byteAt l 2 + 256 * (byteAt l 3 +
    256 * (byteAt l 4 + 256 * (byteAt l 5 + 256 * (byteAt l 6 + 256 * byteAt l 7))))))

/-- Reads `n` 8-byte little-endian entries. -/
def readEntries : Nat → List Nat → List Nat
  | 0, _ => []
  | n + 1, l => readLe64 l :: readEntries n (l.drop 8)

/-- Modelled from the spec (§4.3): the version-1 persisted index stream
written by `saIndex.Write` — magic "PMLO", version byte 1, 8-byte LE buffer
length, buffer bytes, 8-byte LE entry count, then the suffix-array entries as
8-byte LE fields. -/
def writeIndexData (idx : PIndex) : List Nat :=
  pmloMagic ++ [1] ++ le64 idx.data.length ++ idx.data ++
    le64 idx.sa.length ++ (idx.sa.map le64).flatten

/-- Modelled from the spec (§4.3): `Index.Read` parsing and validation of the
persisted stream — magic and version mismatches are `formatError`, an entry
count different from the buffer length is `formatError`, and running out of
bytes is `ioError`. -/
def readIndexData (s : List Nat) : Except StoreErr PIndex :=
  if s.length < 4 then .error .ioError
  else if s.take 4 ≠ pmloMagic then .error .formatError
  else if s.length < 5 then .error .ioError
  else if byteAt s 4 ≠ 1 then .error .formatError
  else
    let s2 := s.drop 5
    if s2.length < 8 then .error .ioError
    else
      let blen := readLe64 s2
      let s3 := s2.drop 8
      if s3.length < blen then .error .ioError
      else
        let buf := s3.take blen
        let s4 := s3.drop blen
        if s4.length < 8 then .error .ioError
        else
          let ecount := readLe64 s4
          let s5 := s4.drop 8
          if ecount ≠ blen then .error .formatError
          else if s5.length < 8 * ecount then .error .ioError
          else .ok ⟨buf, readEntries ecount s5⟩

/-- One bit step of the reflected CRC-32 (IEEE polynomial `0xEDB88320`). -/
def crc32Step (c : Nat) : Nat :=
  if c % 2 = 1 then (c / 2) ^^^ 0xEDB88320 else c / 2

/-- Modelled from the spec (§4.3) and the documented behaviour of the external
`hash/crc32` library: per-byte update of the IEEE CRC-32. -/
def crc32Update (c b : Nat) : Nat := crc32Step^[8] (c ^^^ b)

/-- IEEE CRC-32 checksum of a byte sequence (`crc32.NewIEEE(); io.Copy(h, file);
h.Sum32()`). -/
def crc32 (l : List Nat) : Nat :=
  (l.foldl crc32Update 0xFFFFFFFF) ^^^ 0xFFFFFFFF

/-- Hexadecimal digit character code. -/
def hexDigit (d : Nat) : Char :=
  if d < 10 then Char.ofNat (48 + d) else Char.ofNat (87 + d)

/-- Fuel-driven accumulator loop of minimal lowercase hexadecimal rendering;
fuel `n` is always enough since the value shrinks 16-fold per digit. -/
def natToHexAux : Nat → Nat → List Char → List Char
  | 0, _, acc => acc
  | fuel + 1, n, acc =>
    if n = 0 then acc else natToHexAux fuel (n / 16) (hexDigit (n % 16) :: acc)

/-- Go `fmt.Sprintf("%x", n)` for unsigned `n`: minimal lowercase hex. -/
def natToHex (n : Nat) : String :=
  if n = 0 then "0" else String.mk (natToHexAux n n [])

/-- The registry `saIndexes map[string]*suffixarray.Index`, as an association
list with map semantics. -/
def Registry := List (String × PIndex)

instance : DecidableEq Registry := by
  unfold Registry; infer_instance

/-- Map insertion `reg[k] = v`: replaces an existing binding, else appends. -/
def regInsert (reg : Registry) (k : String) (v : PIndex) : Registry :=
  match reg with
  | [] => [(k, v)]
  | (k', v') :: rest =>
    if k' = k then (k, v) :: rest else (k', v') :: regInsert rest k v

/-- Map deletion `delete(reg, k)`. -/
def regErase (reg : Registry) (k : String) : Registry :=
  match reg with
  | [] => []
  | (k', v') :: rest => if k' = k then rest else (k', v') :: regErase rest k

/-- Map member/fetch `reg[k]`. -/
def regFind (reg : Registry) (k : String) : Option PIndex :=
  match reg with
  | [] => none
  | (k', v') :: rest => if k' = k then some v' else regFind rest k

/-- Go `loadIndex`: open the file (`none` in `fs` models an unreadable path);
with an empty key, derive one as the lowercase hex of the CRC-32 of the whole
content; install an empty index into the registry under the resolved key;
then read the persisted stream into that entry.  Returns the resolved key,
the resulting registry, and the error if any. -/
def loadIndex (fs : String → Option (List Nat)) (src key : String)
    (reg : Registry) : String × Registry × Option StoreErr :=
  match fs src with
  | none => ("", reg, some .ioError)
  | some content =>
    let key := if key = "" then natToHex (crc32 content) else key
    let reg1 := regInsert reg key ⟨[], []⟩
    match readIndexData content with
    | .error e => (key, reg1, some e)
    | .ok idx => (key, regInsert reg1 key idx, none)

/-- HTTP outcomes distinguished by the handlers. -/
inductive HStatus where
  | ok
  | forbidden
  | badRequest
deriving DecidableEq, Repr

/-- Go `unloadHandler`: the trust gate `isLocal(r.RemoteAddr)` evaluated by the
transport layer is passed in as `trusted`; untrusted callers get Forbidden
before the registry is touched; unknown or empty keys get BadRequest; else the
entry is deleted. -/
def unloadHandler (trusted : Bool) (key : String) (reg : Registry) : Registry × HStatus :=
  if ¬ trusted then (reg, .forbidden)
  else if key = "" ∨ (regFind reg key).isNone then (reg, .badRequest)
  else (regErase reg key, .ok)

/-- Go `loadHandler`: Forbidden for untrusted callers before anything else;
then form parsing (`formOk` models `r.ParseForm()` succeeding), then
`loadIndex`, whose error is reported as BadRequest. -/
def loadHandler (trusted : Bool) (formOk : Bool) (fs : String → Option (List Nat))
    (path key : String) (reg : Registry) : Registry × HStatus :=
  if ¬ trusted then (reg, .forbidden)
  else if ¬ formOk then (reg, .badRequest)
  else
    match loadIndex fs path key reg with
    | (_, reg', some _) => (reg', .badRequest)
    | (_, reg', none) => (reg', .ok)

/-- Go `queryHandler`: BadRequest iff the index key is empty or unknown or the
first `q` value is empty (`qs.Get("q")`); otherwise every `q` value — later
empty ones included — is passed to `indexLookup`. -/
def queryHandler (reg : Registry) (key : String) (qvals : List (List Nat)) :
    Except HStatus (List (List Item)) :=
  match regFind reg key with
  | none => .error .badRequest
  | some idx =>
    if key = "" then .error .badRequest
    else if qvals.headD [] = [] then .error .badRequest
    else .ok (qvals.map fun q => indexLookup idx.data idx.sa q)

/-- The resolved registry key of a load: content-derived when none is given. -/
def resolvedKey (key : String) (content : List Nat) : String :=
  if key = "" then natToHex (crc32 content) else key

/-- Scenario A input lines: "alice	5000", "bob	500", "alice2" (byte values). -/
def scenarioLines : List (List Nat) :=
  [[97, 108, 105, 99, 101, 9, 53, 48, 48, 48],
   [98, 111, 98, 9, 53, 48, 48],
   [97, 108, 105, 99, 101, 50]]

/-- The retention rule as the amended claim states it: the raw key fits
`maxLength` and, when a tab is present, the weight text parses as a decimal
`uint32` of at least `minValue`; tab-less lines are subject to the length
check only and keep weight 0. -/
def survivesSpec (maxLength minValue : Nat) (line : List Nat) : Prop :=
  (splitTab line).1.length ≤ maxLength ∧
  ∀ wtxt, (splitTab line).2 = some wtxt →
    ∃ v, parseUint32 wtxt = some v ∧ minValue ≤ v

/-- Build input "x	4294967295" then "b": the second record is tab-less with
weight 0, so its varint slot starts with a 0 byte followed by stale nonzero
bytes left over from the first record's 5-byte varint. -/
def c2Lines : List (List Nat) :=
  [[120, 9, 52, 50, 57, 52, 57, 54, 55, 50, 57, 53], [98]]

/-- Build line "ab	5000". -/
def c2GoodLine : List Nat := [97, 98, 9, 53, 48, 48, 48]

/-- Build line "aa	1000". -/
def c5Line : List Nat := [97, 97, 9, 49, 48, 48, 48]

/-- 1025 copies of "aa	1000", whose buffer holds 2050 occurrences of 'a'. -/
def c5Lines : List (List Nat) := List.replicate 1025 c5Line

/-- The record retained from `c5Line`. -/
def c5Rec : Rec := ⟨[97, 97], 1000⟩

/-- File system with a single readable path "f" holding malformed bytes. -/
def c3fs : String → Option (List Nat) := fun p => if p = "f" then some [1, 2, 3] else none

/-!  ### Loop unfolding: the fuelled loops satisfy their Go recurrences  -/

theorem scanFwdAux_irrel (data : List Nat) :
    ∀ f1 f2 e, data.length - e ≤ f1 → data.length - e ≤ f2 →
      scanFwdAux data f1 e = scanFwdAux data f2 e := by
  intro f1
  induction f1 with
  | zero =>
    intro f2 e h1 h2
    cases f2 with
    | zero => rfl
    | succ g =>
      simp only [scanFwdAux]
      rw [if_neg]
      rintro ⟨hlt, -⟩
      omega
  | succ f ih =>
    intro f2 e h1 h2
    cases f2 with
    | zero =>
      simp only [scanFwdAux]
      rw [if_neg]
      rintro ⟨hlt, -⟩
      omega
    | succ g =>
      simp only [scanFwdAux]
      by_cases hc : e < data.length ∧ byteAt data e ≠ delimiter
      · rw [if_pos hc, if_pos hc]
        exact ih g (e + 1) (by omega) (by omega)
      · rw [if_neg hc, if_neg hc]

theorem scanFwd_unfold (data : List Nat) (e : Nat) :
    scanFwd data e
      = if e < data.length ∧ byteAt data e ≠ delimiter then scanFwd data (e + 1) else e := by
  unfold scanFwd
  cases hf : data.length - e with
  | zero =>
    simp only [scanFwdAux]
    rw [if_neg]
    rintro ⟨hlt, -⟩
    omega
  | succ f =>
    simp only [scanFwdAux]
    by_cases hc : e < data.length ∧ byteAt data e ≠ delimiter
    · rw [if_pos hc, if_pos hc]
      exact scanFwdAux_irrel data f (data.length - (e + 1)) (e + 1) (by omega) (by omega)
    · rw [if_neg hc, if_neg hc]

theorem consumeAux_irrel (data : List Nat) :
    ∀ f1 f2 e, data.length - e ≤ f1 → data.length - e ≤ f2 →
      consumeAux data f1 e = consumeAux data f2 e := by
  intro f1
  induction f1 with
  | zero =>
    intro f2 e h1 h2
    cases f2 with
    | zero => rfl
    | succ g =>
      simp only [consumeAux]
      rw [if_neg]
      rintro ⟨hlt, -⟩
      omega
  | succ f ih =>
    intro f2 e h1 h2
    cases f2 with
    | zero =>
      simp only [consumeAux]
      rw [if_neg]
      rintro ⟨hlt, -⟩
      omega
    | succ g =>
      simp only [consumeAux]
      by_cases hc : e + 1 < data.length ∧ byteAt data (e + 1) = delimiter
      · rw [if_pos hc, if_pos hc]
        exact ih g (e + 1) (by omega) (by omega)
      · rw [if_neg hc, if_neg hc]

theorem consume_unfold (data : List Nat) (e : Nat) :
    consume data e
      = if e + 1 < data.length ∧ byteAt data (e + 1) = delimiter then consume data (e + 1)
        else e := by
  unfold consume
  cases hf : data.length - e with
  | zero =>
    simp only [consumeAux]
    rw [if_neg]
    rintro ⟨hlt, -⟩
    omega
  | succ f =>
    simp only [consumeAux]
    by_cases hc : e + 1 < data.length ∧ byteAt data (e + 1) = delimiter
    · rw [if_pos hc, if_pos hc]
      exact consumeAux_irrel data f (data.length - (e + 1)) (e + 1) (by omega) (by omega)
    · rw [if_neg hc, if_neg hc]

theorem lt_pow128_succ (n : Nat) : n < 128 ^ (n + 1) := by
  calc n < 2 ^ n := Nat.lt_two_pow n
    _ ≤ 128 ^ n := Nat.pow_le_pow_left (by omega) n
    _ ≤ 128 ^ (n + 1) := Nat.pow_le_pow_right (by omega) (by omega)

theorem uvarintBytesAux_irrel :
    ∀ f1 f2 x, x < 128 ^ (f1 + 1) → x < 128 ^ (f2 + 1) →
      uvarintBytesAux f1 x = uvarintBytesAux f2 x := by
  intro f1
  induction f1 with
  | zero =>
    intro f2 x h1 h2
    have hx : x < 128 := by simpa using h1
    cases f2 with
    | zero => rfl
    | succ g => simp only [uvarintBytesAux, if_pos hx]
  | succ f ih =>
    intro f2 x h1 h2
    by_cases hx : x < 128
    · cases f2 with
      | zero => simp only [uvarintBytesAux, if_pos hx]
      | succ g => simp only [uvarintBytesAux, if_pos hx]
    · cases f2 with
      | zero =>
        exfalso
        have : x < 128 := by simpa using h2
        omega
      | succ g =>
        simp only [uvarintBytesAux, if_neg hx]
        congr 1
        apply ih
        · rw [Nat.div_lt_iff_lt_mul (by omega : (0 : Nat) < 128)]
          calc x < 128 ^ (f + 1 + 1) := h1
            _ = 128 ^ (f + 1) * 128 := by rw [pow_succ]
        · rw [Nat.div_lt_iff_lt_mul (by omega : (0 : Nat) < 128)]
          calc x < 128 ^ (g + 1 + 1) := h2
            _ = 128 ^ (g + 1) * 128 := by rw [pow_succ]

theorem uvarintBytes_unfold (x : Nat) :
    uvarintBytes x = if x < 128 then [x] else (x % 128 + 128) :: uvarintBytes (x / 128) := by
  unfold uvarintBytes
  cases x with
  | zero => simp [uvarintBytesAux]
  | succ n =>
    by_cases h : n + 1 < 128
    · simp only [uvarintBytesAux, if_pos h]
    · simp only [uvarintBytesAux, if_neg h]
      congr 1
      apply uvarintBytesAux_irrel
      · have hd : (n + 1) / 128 < n + 1 := Nat.div_lt_self (by omega) (by omega)
        have h2 : n < 128 ^ (n + 1) := lt_pow128_succ n
        omega
      · exact lt_pow128_succ _

/-!  ### Basic byte lemmas  -/

theorem byteAt_append_right (X Y : List Nat) (t : Nat) :
    byteAt (X ++ Y) (X.length + t) = byteAt Y t := by
  induction X with
  | nil => simp [byteAt]
  | cons x xs ih =>
    simpa [byteAt, List.getD_cons_succ, Nat.succ_add] using ih

theorem byteAt_append_left (X Y : List Nat) (t : Nat) (h : t < X.length) :
    byteAt (X ++ Y) t = byteAt X t := by
  induction X generalizing t with
  | nil => simp at h
  | cons x xs ih =>
    cases t with
    | zero => simp [byteAt]
    | succ t =>
      simp only [List.length_cons, Nat.succ_lt_succ_iff] at h
      simpa [byteAt, List.getD_cons_succ] using ih t h

theorem byteAt_mem (l : List Nat) (t : Nat) (h : t < l.length) : byteAt l t ∈ l := by
  simp only [byteAt, List.getD_eq_getElem?_getD, List.getElem?_eq_getElem h]
  exact List.getElem_mem h

theorem byteAt_replicate_zero (n t : Nat) : byteAt (List.replicate n 0) t = 0 := by
  induction n generalizing t with
  | zero => simp [byteAt]
  | succ n ih =>
    cases t with
    | zero => simp [byteAt]
    | succ t =>
      rw [List.replicate_succ]
      unfold byteAt
      rw [List.getD_cons_succ]
      exact ih t

theorem startsWith_append (p rest : List Nat) : startsWith (p ++ rest) p = true := by
  induction p with
  | nil => simp [startsWith]
  | cons a as ih => simpa [startsWith] using ih

theorem startsWith_iff (l p : List Nat) :
    startsWith l p = true ↔ ∃ t, l = p ++ t := by
  induction p generalizing l with
  | nil => simp [startsWith]
  | cons a as ih =>
    cases l with
    | nil => simp [startsWith]
    | cons b bs =>
      constructor
      · intro h
        simp only [startsWith, Bool.and_eq_true, beq_iff_eq] at h
        rcases (ih bs).mp h.2 with ⟨t, ht⟩
        exact ⟨t, by simp [h.1, ht]⟩
      · rintro ⟨t, ht⟩
        simp only [List.cons_append, List.cons.injEq] at ht
        simp only [startsWith, Bool.and_eq_true, beq_iff_eq]
        exact ⟨ht.1, (ih bs).mpr ⟨t, ht.2⟩⟩

theorem matchesAt_lt_length (data p : List Nat) (i : Nat) (hp : p ≠ [])
    (h : matchesAt data i p = true) : i < data.length := by
  rcases (startsWith_iff _ _).mp h with ⟨t, ht⟩
  by_contra hge
  rw [List.drop_eq_nil_of_le (by omega)] at ht
  cases p with
  | nil => exact hp rfl
  | cons a as => simp at ht

/-!  ### Scan characterization  -/

theorem scanBack_spec (data : List Nat) (a j : Nat)
    (hnz : ∀ t, t < j → byteAt data (a + t) ≠ 0)
    (ha : a = 0 ∨ byteAt data (a - 1) = 0) :
    scanBack data (a + j) = a := by
  induction j with
  | zero =>
    cases a with
    | zero => rfl
    | succ b =>
      have hb : byteAt data b = 0 := by
        rcases ha with h | h
        · omega
        · simpa using h
      simp [scanBack, hb, delimiter]
  | succ j ih =>
    have hj : byteAt data (a + j) ≠ 0 := hnz j (by omega)
    have : a + (j + 1) = (a + j) + 1 := by omega
    rw [this]
    simp only [scanBack, delimiter]
    rw [if_pos hj]
    exact ih (fun t ht => hnz t (by omega))

theorem scanFwd_spec (data : List Nat) (e e1 : Nat) (he : e ≤ e1)
    (h1 : e1 < data.length) (hz : byteAt data e1 = 0)
    (hnz : ∀ t, e ≤ t → t < e1 → byteAt data t ≠ 0) :
    scanFwd data e = e1 := by
  obtain ⟨n, hn⟩ : ∃ n, e1 - e = n := ⟨_, rfl⟩
  induction n generalizing e with
  | zero =>
    have : e = e1 := by omega
    subst this
    rw [scanFwd_unfold]
    simp [hz, delimiter]
  | succ n ih =>
    have hlt : e < e1 := by omega
    have hne : byteAt data e ≠ 0 := hnz e (le_refl _) hlt
    rw [scanFwd_unfold]
    rw [if_pos ⟨by omega, by simpa [delimiter] using hne⟩]
    exact ih (e + 1) (by omega) (fun t ht h2 => hnz t (by omega) h2) (by omega)

theorem consume_spec (data : List Nat) (e e1 : Nat) (he : e ≤ e1)
    (hz : ∀ t, e < t → t ≤ e1 → byteAt data t = 0)
    (hstop : e1 + 1 = data.length ∨ byteAt data (e1 + 1) ≠ 0)
    (hlt : e1 < data.length) :
    consume data e = e1 := by
  obtain ⟨n, hn⟩ : ∃ n, e1 - e = n := ⟨_, rfl⟩
  induction n generalizing e with
  | zero =>
    have : e = e1 := by omega
    subst this
    rw [consume_unfold]
    rcases hstop with h | h
    · rw [if_neg]; omega
    · rw [if_neg]
      simp only [delimiter, not_and]
      intro _
      exact h
  | succ n ih =>
    have hlt' : e < e1 := by omega
    rw [consume_unfold]
    rw [if_pos ⟨by omega, by simpa [delimiter] using hz (e + 1) (by omega) (by omega)⟩]
    exact ih (e + 1) (by omega) (fun t ht h2 => hz t (by omega) h2) (by omega)

/-!  ### Varint lemmas  -/

theorem uvarintBytes_ne_nil (w : Nat) : uvarintBytes w ≠ [] := by
  rw [uvarintBytes_unfold]
  split <;> simp

theorem uvarintBytes_ne_zero (w : Nat) (hw : 0 < w) :
    ∀ b ∈ uvarintBytes w, b ≠ 0 := by
  induction w using Nat.strong_induction_on with
  | _ w ih =>
    intro b hb
    rw [uvarintBytes_unfold] at hb
    by_cases h : w < 128
    · rw [if_pos h] at hb
      simp at hb
      omega
    · rw [if_neg h] at hb
      rcases List.mem_cons.mp hb with h1 | h1
      · omega
      · exact ih (w / 128) (Nat.div_lt_self (by omega) (by omega)) (by
          have := Nat.div_pos (by omega : 128 ≤ w) (by omega : 0 < 128)
          omega) b h1

theorem uvarintBytes_length_le (k : Nat) : ∀ w, w < 2 ^ (7 * k) → (uvarintBytes w).length ≤ k + 1 := by
  induction k with
  | zero =>
    intro w hw
    interval_cases w
    decide
  | succ k ih =>
    intro w hw
    rw [uvarintBytes_unfold]
    split
    · simp
    · have : w / 128 < 2 ^ (7 * k) := by
        rw [Nat.div_lt_iff_lt_mul (by omega : 0 < 128)]
        calc w < 2 ^ (7 * (k + 1)) := hw
          _ = 2 ^ (7 * k) * 128 := by
            rw [show 7 * (k + 1) = 7 * k + 7 by ring, pow_add]
            norm_num
      have := ih (w / 128) this
      simp only [List.length_cons]
      omega

theorem lor_shiftLeft_eq_add (x y s : Nat) (hx : x < 2 ^ s) :
    x ||| y <<< s = x + y <<< s := by
  rw [Nat.shiftLeft_eq, Nat.lor_comm, Nat.mul_comm y]
  rw [← Nat.mul_add_lt_is_or hx]
  omega

theorem uvarint_encode (w : Nat) (rest : List Nat) (i s x : Nat)
    (hi : i + (uvarintBytes w).length ≤ 9)
    (hs : s = 7 * i)
    (hx : x < 2 ^ s)
    (hbound : x + w <<< s < 2 ^ 63) :
    uvarintLoop (uvarintBytes w ++ rest) i s x = x + w <<< s := by
  induction w using Nat.strong_induction_on generalizing i s x with
  | _ w ih =>
    rw [uvarintBytes_unfold]
    by_cases h : w < 128
    · rw [if_pos h]
      have hlen : (uvarintBytes w).length = 1 := by
        rw [uvarintBytes_unfold, if_pos h]
        rfl
      rw [uvarintBytes_unfold, if_pos h] at hi
      simp only [List.length_cons, List.length_nil] at hi
      have hsle : s ≤ 56 := by omega
      have hshift : w <<< s < 2 ^ 63 := by
        calc w <<< s = w * 2 ^ s := Nat.shiftLeft_eq w s
          _ ≤ 127 * 2 ^ 56 := by
            apply Nat.mul_le_mul (by omega)
            exact Nat.pow_le_pow_right (by omega) hsle
          _ < 2 ^ 63 := by norm_num
      simp only [uvarintLoop, List.cons_append]
      rw [if_neg (by omega), if_pos h, if_neg (by omega)]
      rw [Nat.mod_eq_of_lt (lt_trans hshift (by norm_num : (2:Nat) ^ 63 < 2 ^ 64))]
      exact lor_shiftLeft_eq_add x w s hx
    · rw [if_neg h]
      have hlen1 : (uvarintBytes w).length = (uvarintBytes (w / 128)).length + 1 := by
        rw [uvarintBytes_unfold, if_neg h]; simp
      rw [hlen1] at hi
      have hd : w / 128 < w := Nat.div_lt_self (by omega) (by omega)
      have hb : w % 128 + 128 ≥ 128 := by omega
      simp only [uvarintLoop, List.cons_append]
      rw [if_neg (by omega), if_neg (by omega)]
      have hmod : (w % 128 + 128) % 128 = w % 128 := by omega
      rw [hmod]
      have hsle : s ≤ 49 := by
        have : 1 ≤ (uvarintBytes (w / 128)).length := by
          have := uvarintBytes_ne_nil (w / 128)
          cases hh : uvarintBytes (w / 128) with
          | nil => exact absurd hh this
          | cons a l => simp
        omega
      have hmlt : (w % 128) <<< s < 2 ^ 56 := by
        calc (w % 128) <<< s = (w % 128) * 2 ^ s := Nat.shiftLeft_eq _ s
          _ ≤ 127 * 2 ^ 49 := by
            apply Nat.mul_le_mul (by omega)
            exact Nat.pow_le_pow_right (by omega) hsle
          _ < 2 ^ 56 := by norm_num
      rw [Nat.mod_eq_of_lt (lt_trans hmlt (by norm_num : (2:Nat) ^ 56 < 2 ^ 64))]
      rw [lor_shiftLeft_eq_add x (w % 128) s hx]
      have hstep : x + (w % 128) <<< s < 2 ^ (s + 7) := by
        have h1 : (w % 128) <<< s = (w % 128) * 2 ^ s := Nat.shiftLeft_eq _ s
        have h2 : (2 : Nat) ^ (s + 7) = 2 ^ s * 128 := by rw [pow_add]; norm_num
        have h3 : (w % 128) * 2 ^ s ≤ 127 * 2 ^ s := Nat.mul_le_mul (by omega) (le_refl _)
        have h4 : (0 : Nat) < 2 ^ s := Nat.two_pow_pos s
        omega
      have hsplit : w <<< s = (w % 128) <<< s + (w / 128) <<< (s + 7) := by
        rw [Nat.shiftLeft_eq, Nat.shiftLeft_eq, Nat.shiftLeft_eq, pow_add]
        have : w = w % 128 + 128 * (w / 128) := by omega
        calc w * 2 ^ s = (w % 128 + 128 * (w / 128)) * 2 ^ s := by rw [← this]
          _ = (w % 128) * 2 ^ s + (w / 128) * (2 ^ s * 2 ^ 7) := by ring
      have hrec := ih (w / 128) hd (i + 1) (s + 7) (x + (w % 128) <<< s)
        (by omega) (by omega) hstep (by omega : x + (w % 128) <<< s + (w / 128) <<< (s + 7) < 2 ^ 63)
      show uvarintLoop (uvarintBytes (w / 128) ++ rest) (i + 1) (s + 7) (x + (w % 128) <<< s) = x + w <<< s
      rw [hrec]
      omega

theorem uvarintBytes_length_le6 (w : Nat) (hw : w < 2 ^ 32) :
    (uvarintBytes w).length ≤ 6 := by
  have := uvarintBytes_length_le 5 w (by
    calc w < 2 ^ 32 := hw
      _ ≤ 2 ^ (7 * 5) := by norm_num)
  omega

theorem uvarintBytes_length_pos (w : Nat) : 1 ≤ (uvarintBytes w).length := by
  cases hh : uvarintBytes w with
  | nil => exact absurd hh (uvarintBytes_ne_nil w)
  | cons a l => simp

theorem uvarint_encode_decode (w : Nat) (rest : List Nat) (hw : w < 2 ^ 32) :
    uvarint (uvarintBytes w ++ rest) = w := by
  have hlen : (uvarintBytes w).length ≤ 6 := by
    have := uvarintBytes_length_le 5 w (by
      calc w < 2 ^ 32 := hw
        _ ≤ 2 ^ (7 * 5) := by norm_num)
    omega
  have := uvarint_encode w rest 0 0 0 (by omega) (by omega) (by norm_num)
    (by
      have : w <<< 0 = w := by simp [Nat.shiftLeft_eq]
      rw [Nat.zero_add, this]
      calc w < 2 ^ 32 := hw
        _ < 2 ^ 63 := by norm_num)
  rw [uvarint, this]
  simp [Nat.shiftLeft_eq]

/-!  ### Record-layout lemmas  -/

theorem recsData_cons (r : Rec) (rs : List Rec) :
    recsData (r :: rs) = encRec r ++ recsData rs := by
  simp [recsData]

theorem recsData_append (rs1 rs2 : List Rec) :
    recsData (rs1 ++ rs2) = recsData rs1 ++ recsData rs2 := by
  simp [recsData]

theorem encRec_assoc (k : List Nat) (w : Nat) :
    encRec ⟨k, w⟩ =
      k ++ (uvarintBytes w ++ (List.replicate (10 - (uvarintBytes w).length) 0 ++ [0])) := by
  simp [encRec, delimiter]

theorem encRec_length (r : Rec) (hw : r.w < 2 ^ 32) :
    (encRec r).length = r.key.length + 11 := by
  have h1 := uvarintBytes_length_le6 r.w hw
  have h2 := uvarintBytes_length_pos r.w
  simp [encRec]
  omega

theorem recsData_ends (rs : List Rec) (h : rs ≠ []) :
    ∃ C, recsData rs = C ++ [0] := by
  induction rs with
  | nil => exact absurd rfl h
  | cons r rs ih =>
    cases rs with
    | nil =>
      refine ⟨r.key ++ uvarintBytes r.w ++ List.replicate (10 - (uvarintBytes r.w).length) 0, ?_⟩
      simp [recsData, encRec, delimiter]
    | cons r2 rs2 =>
      rcases ih (by simp) with ⟨C, hC⟩
      refine ⟨encRec r ++ C, ?_⟩
      rw [recsData_cons, hC, List.append_assoc]

theorem recsData_head_ne_zero (rs : List Rec) (hwf : ∀ r ∈ rs, wfRec r) (h : rs ≠ []) :
    byteAt (recsData rs) 0 ≠ 0 := by
  cases rs with
  | nil => exact absurd rfl h
  | cons r rs =>
    have hr := hwf r (by simp)
    rcases hr with ⟨hk0, hknz, _, _⟩
    rw [recsData_cons]
    cases hk : r.key with
    | nil => exact absurd hk hk0
    | cons b ks =>
      have hb : b ≠ 0 := hknz b (by rw [hk]; simp)
      have : encRec r = b :: (ks ++ uvarintBytes r.w ++
          List.replicate (10 - (uvarintBytes r.w).length) 0 ++ [delimiter]) := by
        simp [encRec, hk]
      rw [this]
      simpa [byteAt] using hb

theorem slice_middle (X Y Z : List Nat) :
    slice (X ++ (Y ++ Z)) X.length (X.length + Y.length) = Y := by
  unfold slice
  rw [List.drop_left, Nat.add_sub_cancel_left, List.take_left]

/-- Boundary recovery succeeds at every in-key offset of a well-formed,
zero-padded record and returns exactly that record's key and weight. -/
theorem recover_at_key (A B k : List Nat) (w j : Nat)
    (hknz : ∀ b ∈ k, b ≠ 0)
    (hw : 0 < w) (hwlt : w < 2 ^ 32) (hj : j < k.length)
    (hA : A = [] ∨ ∃ C, A = C ++ [0])
    (hB : B = [] ∨ byteAt B 0 ≠ 0) :
    recoverItem (A ++ encRec ⟨k, w⟩ ++ B) (A.length + j) = some ⟨k, w⟩ := by
  have hvl : (uvarintBytes w).length ≤ 6 := uvarintBytes_length_le6 w hwlt
  have hvl1 : 1 ≤ (uvarintBytes w).length := uvarintBytes_length_pos w
  have hzl : (List.replicate (10 - (uvarintBytes w).length) 0).length
      = 10 - (uvarintBytes w).length := by simp
  have henc : (encRec ⟨k, w⟩).length = k.length + 11 := encRec_length ⟨k, w⟩ hwlt
  have hdlen : (A ++ encRec ⟨k, w⟩ ++ B).length = A.length + (k.length + 11) + B.length := by
    simp [henc]
    omega
  -- byte lookup inside the record
  have hin : ∀ t, t < k.length + 11 →
      byteAt (A ++ encRec ⟨k, w⟩ ++ B) (A.length + t) = byteAt (encRec ⟨k, w⟩) t := by
    intro t ht
    rw [List.append_assoc, byteAt_append_right]
    exact byteAt_append_left _ _ t (by omega)
  have hkey : ∀ t, t < k.length → byteAt (A ++ encRec ⟨k, w⟩ ++ B) (A.length + t) ≠ 0 := by
    intro t ht
    rw [hin t (by omega), encRec_assoc, byteAt_append_left _ _ t ht]
    exact hknz _ (byteAt_mem k t ht)
  have hvb : ∀ u, u < (uvarintBytes w).length →
      byteAt (A ++ encRec ⟨k, w⟩ ++ B) (A.length + (k.length + u)) ≠ 0 := by
    intro u hu
    rw [hin _ (by omega), encRec_assoc, byteAt_append_right,
      byteAt_append_left _ _ u hu]
    exact uvarintBytes_ne_zero w hw _ (byteAt_mem _ u hu)
  have hzero : ∀ u, (uvarintBytes w).length ≤ u → u ≤ 10 →
      byteAt (A ++ encRec ⟨k, w⟩ ++ B) (A.length + (k.length + u)) = 0 := by
    intro u hu1 hu2
    rw [hin _ (by omega), encRec_assoc, byteAt_append_right]
    obtain ⟨u', rfl⟩ : ∃ u', u = (uvarintBytes w).length + u' :=
      ⟨u - (uvarintBytes w).length, by omega⟩
    rw [byteAt_append_right]
    by_cases hu3 : u' < 10 - (uvarintBytes w).length
    · rw [byteAt_append_left _ _ _ (by rw [hzl]; exact hu3)]
      exact byteAt_replicate_zero _ _
    · have : u' = (List.replicate (10 - (uvarintBytes w).length) 0).length + 0 := by
        rw [hzl]; omega
      rw [this, byteAt_append_right]
      simp [byteAt]
  -- backward scan
  have hstart : scanBack (A ++ encRec ⟨k, w⟩ ++ B) (A.length + j) = A.length := by
    apply scanBack_spec
    · intro t ht
      exact hkey t (by omega)
    · rcases hA with h | ⟨C, hC⟩
      · left; simp [h]
      · right
        have hCl : A.length = C.length + 1 := by simp [hC]
        rw [hCl]
        simp only [Nat.add_sub_cancel]
        rw [List.append_assoc, byteAt_append_left _ _ _ (by omega : C.length < A.length)]
        rw [hC]
        have := byteAt_append_right C [0] 0
        simpa using this
  -- forward scan
  have hfwd : scanFwd (A ++ encRec ⟨k, w⟩ ++ B) (A.length + j)
      = A.length + (k.length + (uvarintBytes w).length) := by
    apply scanFwd_spec
    · omega
    · omega
    · exact hzero _ (le_refl _) (by omega)
    · intro t ht1 ht2
      obtain ⟨t', rfl⟩ : ∃ t', t = A.length + t' := ⟨t - A.length, by omega⟩
      by_cases hc : t' < k.length
      · exact hkey t' hc
      · obtain ⟨u, rfl⟩ : ∃ u, t' = k.length + u := ⟨t' - k.length, by omega⟩
        exact hvb u (by omega)
  -- delimiter consumption
  have hcons : consume (A ++ encRec ⟨k, w⟩ ++ B)
      (A.length + (k.length + (uvarintBytes w).length)) = A.length + (k.length + 10) := by
    apply consume_spec
    · omega
    · intro t ht1 ht2
      obtain ⟨u, rfl⟩ : ∃ u, t = A.length + (k.length + u) :=
        ⟨t - A.length - k.length, by omega⟩
      exact hzero u (by omega) (by omega)
    · rcases hB with h | h
      · left; rw [hdlen, h]; simp; omega
      · right
        have : A.length + (k.length + 10) + 1 = (A ++ encRec ⟨k, w⟩).length + 0 := by
          simp [henc]
          omega
        rw [this, byteAt_append_right]
        exact h
    · omega
  -- assemble
  rw [recoverItem, hfwd, hcons, hstart]
  rw [if_neg (by omega)]
  have hval : slice (A ++ encRec ⟨k, w⟩ ++ B) (A.length + (k.length + 10) - 10)
      (A.length + (k.length + 10))
      = uvarintBytes w ++ List.replicate (10 - (uvarintBytes w).length) 0 := by
    have hregroup : A ++ encRec ⟨k, w⟩ ++ B = (A ++ k) ++
        ((uvarintBytes w ++ List.replicate (10 - (uvarintBytes w).length) 0) ++ ([0] ++ B)) := by
      rw [encRec_assoc]
      simp [List.append_assoc]
    have h10 : (uvarintBytes w ++ List.replicate (10 - (uvarintBytes w).length) 0).length
        = 10 := by simp; omega
    have hAk : (A ++ k).length = A.length + k.length := by simp
    have := slice_middle (A ++ k)
      (uvarintBytes w ++ List.replicate (10 - (uvarintBytes w).length) 0) ([0] ++ B)
    rw [hAk, h10] at this
    rw [hregroup, show A.length + (k.length + 10) - 10 = A.length + k.length by omega,
      show A.length + (k.length + 10) = A.length + k.length + 10 by omega]
    exact this
  have hkeyslice : slice (A ++ encRec ⟨k, w⟩ ++ B) A.length (A.length + (k.length + 10) - 10)
      = k := by
    have hregroup : A ++ encRec ⟨k, w⟩ ++ B = A ++ (k ++
        (uvarintBytes w ++ (List.replicate (10 - (uvarintBytes w).length) 0 ++ ([0] ++ B)))) := by
      rw [encRec_assoc]
      simp [List.append_assoc]
    have := slice_middle A k
      (uvarintBytes w ++ (List.replicate (10 - (uvarintBytes w).length) 0 ++ ([0] ++ B)))
    rw [hregroup, show A.length + (k.length + 10) - 10 = A.length + k.length by omega]
    exact this
  rw [hkeyslice, hval, uvarint_encode_decode w _ hwlt]

/-!  ### Suffix-array and lookup lemmas  -/

theorem suffixArray_perm (data : List Nat) :
    (suffixArray data).Perm (List.range data.length) :=
  List.perm_insertionSort _ _

theorem suffixArray_length (data : List Nat) :
    (suffixArray data).length = data.length := by
  rw [(suffixArray_perm data).length_eq, List.length_range]

theorem filter_suffixArray_length (data p : List Nat) :
    ((suffixArray data).filter (fun i => matchesAt data i p)).length = matchCount data p := by
  rw [← List.countP_eq_length_filter]
  exact (suffixArray_perm data).countP_eq _

theorem saLookup_eq_filter (data p : List Nat) (h : matchCount data p ≤ maxLookup) :
    saLookup data (suffixArray data) p
      = (suffixArray data).filter (fun i => matchesAt data i p) := by
  unfold saLookup
  apply List.take_of_length_le
  rw [filter_suffixArray_length]
  exact h

theorem mem_saLookup (data p : List Nat) (o : Nat) (ho : o < data.length)
    (hm : matchesAt data o p = true) (h : matchCount data p ≤ maxLookup) :
    o ∈ saLookup data (suffixArray data) p := by
  rw [saLookup_eq_filter data p h, List.mem_filter]
  exact ⟨(suffixArray_perm data).mem_iff.mpr (List.mem_range.mpr ho), hm⟩

theorem indexLookup_length_le (data sa p : List Nat) :
    (indexLookup data sa p).length ≤ maxLookup := by
  unfold indexLookup
  calc ((saLookup data sa p).filterMap (recoverItem data)).length
      ≤ (saLookup data sa p).length := List.length_filterMap_le _ _
    _ ≤ maxLookup := by
        unfold saLookup
        rw [List.length_take]
        omega

/-- Substring completeness over a buffer of well-formed zero-padded records:
every non-empty substring of a record key, matching at no more than the cap
many offsets buffer-wide, recovers that record. -/
theorem lookup_complete_core (rs : List Rec) (hwf : ∀ r ∈ rs, wfRec r)
    (r : Rec) (hr : r ∈ rs) (P pre post : List Nat)
    (hk : r.key = pre ++ P ++ post) (hP : P ≠ [])
    (hcap : matchCount (recsData rs) P ≤ maxLookup) :
    Item.mk r.key r.w ∈ indexLookup (recsData rs) (suffixArray (recsData rs)) P := by
  rcases List.append_of_mem hr with ⟨rs1, rs2, rfl⟩
  have hwfr := hwf r (by simp)
  rcases hwfr with ⟨hk0, hknz, hw, hwlt⟩
  have hdata : recsData (rs1 ++ r :: rs2) = recsData rs1 ++ encRec r ++ recsData rs2 := by
    rw [recsData_append, recsData_cons, ← List.append_assoc]
  have hPlen : 1 ≤ P.length := by
    cases P with
    | nil => exact absurd rfl hP
    | cons a l => simp
  have hj : pre.length < r.key.length := by
    rw [hk]
    simp
    omega
  have h1 : encRec r = (pre ++ P ++ post) ++ (uvarintBytes r.w ++
      (List.replicate (10 - (uvarintBytes r.w).length) 0 ++ [0])) := by
    rw [show encRec r = encRec ⟨r.key, r.w⟩ from rfl, encRec_assoc, hk]
  have hmatch : matchesAt (recsData (rs1 ++ r :: rs2))
      ((recsData rs1).length + pre.length) P = true := by
    unfold matchesAt
    have hre : recsData (rs1 ++ r :: rs2) = (recsData rs1 ++ pre) ++ (P ++ (post ++
        (uvarintBytes r.w ++ (List.replicate (10 - (uvarintBytes r.w).length) 0 ++
          ([0] ++ recsData rs2))))) := by
      rw [hdata, h1]
      simp [List.append_assoc]
    rw [hre, show (recsData rs1).length + pre.length = (recsData rs1 ++ pre).length by simp,
      List.drop_left]
    exact startsWith_append P _
  have ho : (recsData rs1).length + pre.length < (recsData (rs1 ++ r :: rs2)).length := by
    rw [hdata]
    have := encRec_length r hwlt
    simp [this]
    omega
  have hrec : recoverItem (recsData (rs1 ++ r :: rs2)) ((recsData rs1).length + pre.length)
      = some ⟨r.key, r.w⟩ := by
    rw [hdata]
    apply recover_at_key _ _ _ _ _ hknz hw hwlt hj
    · cases rs1 with
      | nil => left; simp [recsData]
      | cons a l =>
        right
        exact recsData_ends (a :: l) (by simp)
    · cases rs2 with
      | nil => left; simp [recsData]
      | cons a l =>
        right
        apply recsData_head_ne_zero (a :: l) ?_ (by simp)
        intro r' hr'
        apply hwf
        simp only [List.mem_append, List.mem_cons]
        simp only [List.mem_cons] at hr'
        tauto
  unfold indexLookup
  apply List.mem_filterMap.mpr
  refine ⟨(recsData rs1).length + pre.length, ?_, ?_⟩
  · exact mem_saLookup _ _ _ ho hmatch hcap
  · exact hrec

/-!  ### Build-loop structure  -/

theorem retainedRecs_cons_none {ml mv : Nat} {line : List Nat}
    (nfc : List Nat → List Nat) (lines : List (List Nat))
    (h : processLine ml mv line = none) :
    retainedRecs nfc ml mv (line :: lines) = retainedRecs nfc ml mv lines := by
  simp [retainedRecs, List.filterMap_cons, h]

theorem retainedRecs_cons_some {ml mv : Nat} {line : List Nat} {kv : List Nat × Nat}
    (nfc : List Nat → List Nat) (lines : List (List Nat))
    (h : processLine ml mv line = some kv) :
    retainedRecs nfc ml mv (line :: lines)
      = ⟨nfc (trimDelim kv.1), kv.2⟩ :: retainedRecs nfc ml mv lines := by
  simp [retainedRecs, List.filterMap_cons, h]

/-- The Go build loop, started from any state, retains exactly the processed
records and appends their encodings with the varint slot threaded through. -/
theorem build_general (nfc : List Nat → List Nat) (ml mv : Nat) (lines : List (List Nat)) :
    ∀ (c : Nat) (buf valBuf : List Nat),
      (lines.foldl (buildStep nfc ml mv) (c, buf, valBuf)).1
          = c + (retainedRecs nfc ml mv lines).length ∧
      (lines.foldl (buildStep nfc ml mv) (c, buf, valBuf)).2.1
          = buf ++ encodeWithSlots (retainedRecs nfc ml mv lines) valBuf := by
  induction lines with
  | nil =>
    intro c buf valBuf
    simp [retainedRecs, encodeWithSlots]
  | cons line lines ih =>
    intro c buf valBuf
    rw [List.foldl_cons]
    cases h : processLine ml mv line with
    | none =>
      rw [retainedRecs_cons_none nfc lines h]
      have hstep : buildStep nfc ml mv (c, buf, valBuf) line = (c, buf, valBuf) := by
        simp [buildStep, h]
      rw [hstep]
      exact ih c buf valBuf
    | some kv =>
      obtain ⟨k, v⟩ := kv
      rw [retainedRecs_cons_some nfc lines h]
      have hstep : buildStep nfc ml mv (c, buf, valBuf) line
          = (c + 1, buf ++ nfc (trimDelim k) ++ writeSlot v valBuf ++ [delimiter],
             writeSlot v valBuf) := by
        simp [buildStep, h]
      rw [hstep]
      rcases ih (c + 1) (buf ++ nfc (trimDelim k) ++ writeSlot v valBuf ++ [delimiter])
        (writeSlot v valBuf) with ⟨ih1, ih2⟩
      constructor
      · rw [ih1]
        simp
        omega
      · rw [ih2, encodeWithSlots]
        simp [List.append_assoc]

theorem encodeWithSlots_eq (rs : List Rec) :
    ∀ (u : List Nat), u.length ≤ 10 →
      (∀ r1, rs.head? = some r1 → u.length ≤ (uvarintBytes r1.w).length) →
      (∀ r ∈ rs, (uvarintBytes r.w).length ≤ 10) →
      List.Chain' (fun a b => (uvarintBytes a.w).length ≤ (uvarintBytes b.w).length) rs →
      encodeWithSlots rs (u ++ List.replicate (10 - u.length) 0) = recsData rs := by
  induction rs with
  | nil =>
    intro u _ _ _ _
    simp [encodeWithSlots, recsData]
  | cons r rs ih =>
    intro u hu hhead hlen hchain
    have hur : u.length ≤ (uvarintBytes r.w).length := hhead r rfl
    have hrlen : (uvarintBytes r.w).length ≤ 10 := hlen r (by simp)
    have hslot : writeSlot r.w (u ++ List.replicate (10 - u.length) 0)
        = uvarintBytes r.w ++ List.replicate (10 - (uvarintBytes r.w).length) 0 := by
      unfold writeSlot
      congr 1
      obtain ⟨d, hd⟩ : ∃ d, (uvarintBytes r.w).length = u.length + d :=
        ⟨(uvarintBytes r.w).length - u.length, by omega⟩
      rw [hd, List.drop_append, List.drop_replicate]
      congr 1
      omega
    have hhead' : ∀ r1, rs.head? = some r1 →
        (uvarintBytes r.w).length ≤ (uvarintBytes r1.w).length := by
      intro r1 h1
      cases rs with
      | nil => simp at h1
      | cons a l =>
        simp at h1
        subst h1
        exact (List.chain'_cons.mp hchain).1
    rw [encodeWithSlots, hslot]
    rw [ih (uvarintBytes r.w) hrlen hhead' (fun r' hr' => hlen r' (by simp [hr'])) hchain.tail]
    rw [recsData_cons]
    simp [encRec, List.append_assoc]

/-- When the retained weights' varint widths never shrink from one record to
the next, the reused slot never carries stale bytes and the built buffer is
exactly the zero-padded record encoding. -/
theorem buildBuffer_eq (nfc : List Nat → List Nat) (ml mv : Nat) (lines : List (List Nat))
    (hlen : ∀ r ∈ retainedRecs nfc ml mv lines, (uvarintBytes r.w).length ≤ 10)
    (hchain : List.Chain' (fun a b => (uvarintBytes a.w).length ≤ (uvarintBytes b.w).length)
      (retainedRecs nfc ml mv lines)) :
    buildBuffer nfc ml mv lines = recsData (retainedRecs nfc ml mv lines) := by
  unfold buildBuffer buildIndex
  rw [(build_general nfc ml mv lines 0 [] (List.replicate 10 0)).2]
  rw [show (List.replicate 10 0 : List Nat)
      = ([] : List Nat) ++ List.replicate (10 - ([] : List Nat).length) 0 by simp]
  rw [encodeWithSlots_eq _ [] (by simp) (by intro r1 _; simp) hlen hchain]
  simp

theorem buildCount_eq (nfc : List Nat → List Nat) (ml mv : Nat) (lines : List (List Nat)) :
    buildCount nfc ml mv lines = (retainedRecs nfc ml mv lines).length := by
  unfold buildCount buildIndex
  simpa using (build_general nfc ml mv lines 0 [] (List.replicate 10 0)).1

/-!  ### Persisted-store lemmas  -/

theorem le64_length (n : Nat) : (le64 n).length = 8 := by
  simp [le64]

theorem readLe64_le64 (n : Nat) (rest : List Nat) (h : n < 2 ^ 64) :
    readLe64 (le64 n ++ rest) = n := by
  simp only [le64, readLe64, List.cons_append, List.nil_append, byteAt,
    List.getD_cons_zero, List.getD_cons_succ]
  omega

theorem readEntries_flatten (sa : List Nat) (h : ∀ e ∈ sa, e < 2 ^ 64) :
    readEntries sa.length ((sa.map le64).flatten) = sa := by
  induction sa with
  | nil => simp [readEntries]
  | cons e sa ih =>
    simp only [List.map_cons, List.flatten_cons, List.length_cons]
    rw [readEntries]
    have he : e < 2 ^ 64 := h e (by simp)
    rw [readLe64_le64 e _ he]
    have hdrop : (le64 e ++ (sa.map le64).flatten).drop 8 = (sa.map le64).flatten := by
      rw [show (8 : Nat) = (le64 e).length by simp [le64], List.drop_left]
    rw [hdrop, ih (fun x hx => h x (by simp [hx]))]

theorem flatten_map_le64_length (sa : List Nat) :
    ((sa.map le64).flatten).length = 8 * sa.length := by
  induction sa with
  | nil => simp
  | cons e sa ih =>
    simp only [List.map_cons, List.flatten_cons, List.length_append, le64_length, ih,
      List.length_cons]
    ring

theorem readIndexData_write (idx : PIndex) (hd : idx.data.length < 2 ^ 64)
    (hsa : ∀ e ∈ idx.sa, e < 2 ^ 64) (hlen : idx.sa.length = idx.data.length) :
    readIndexData (writeIndexData idx) = .ok idx := by
  obtain ⟨d, sa⟩ := idx
  simp only at hd hsa hlen
  have hw : writeIndexData ⟨d, sa⟩
      = 80 :: 77 :: 76 :: 79 :: 1 ::
          (le64 d.length ++ (d ++ (le64 sa.length ++ (sa.map le64).flatten))) := by
    simp [writeIndexData, pmloMagic, List.append_assoc]
  have hs2len : (le64 d.length ++ (d ++ (le64 sa.length ++ (sa.map le64).flatten))).length
      = 8 + (d.length + (8 + 8 * sa.length)) := by
    rw [List.length_append, List.length_append, List.length_append, le64_length, le64_length,
      flatten_map_le64_length]
  have hble : readLe64 (le64 d.length ++ (d ++ (le64 sa.length ++ (sa.map le64).flatten)))
      = d.length := readLe64_le64 d.length _ hd
  have hdrop8 : (le64 d.length ++ (d ++ (le64 sa.length ++ (sa.map le64).flatten))).drop 8
      = d ++ (le64 sa.length ++ (sa.map le64).flatten) := by
    rw [show (8 : Nat) = (le64 d.length).length by simp [le64_length], List.drop_left]
  have htake : (d ++ (le64 sa.length ++ (sa.map le64).flatten)).take d.length = d :=
    List.take_left d _
  have hdropd : (d ++ (le64 sa.length ++ (sa.map le64).flatten)).drop d.length
      = le64 sa.length ++ (sa.map le64).flatten := List.drop_left d _
  have hele : readLe64 (le64 sa.length ++ (sa.map le64).flatten) = sa.length :=
    readLe64_le64 sa.length _ (by omega)
  have hdrope : (le64 sa.length ++ (sa.map le64).flatten).drop 8 = (sa.map le64).flatten := by
    rw [show (8 : Nat) = (le64 sa.length).length by simp [le64_length], List.drop_left]
  have h3l : (d ++ (le64 sa.length ++ (sa.map le64).flatten)).length
      = d.length + (8 + 8 * sa.length) := by
    rw [List.length_append, List.length_append, le64_length, flatten_map_le64_length]
  have h4l : (le64 sa.length ++ (sa.map le64).flatten).length = 8 + 8 * sa.length := by
    rw [List.length_append, le64_length, flatten_map_le64_length]
  rw [hw, readIndexData]
  rw [if_neg (by simp)]
  rw [if_neg (by simp [pmloMagic])]
  rw [if_neg (by simp)]
  rw [if_neg (by simp [byteAt])]
  simp only [List.drop_succ_cons, List.drop_zero]
  rw [if_neg (by rw [hs2len]; omega)]
  simp only [hble, hdrop8]
  rw [if_neg (by rw [h3l]; omega)]
  simp only [htake, hdropd]
  rw [if_neg (by rw [h4l]; omega)]
  simp only [hele, hdrope]
  rw [if_neg (by omega)]
  rw [if_neg (by rw [flatten_map_le64_length]; omega)]
  rw [readEntries_flatten sa hsa]

theorem readIndexData_bad_magic (s : List Nat) (h4 : 4 ≤ s.length)
    (hm : s.take 4 ≠ pmloMagic) :
    readIndexData s = .error .formatError := by
  rw [readIndexData, if_neg (by omega), if_pos hm]

theorem readIndexData_bad_version (v : Nat) (rest : List Nat) (hv : v ≠ 1) :
    readIndexData (pmloMagic ++ v :: rest) = .error .formatError := by
  rw [readIndexData]
  rw [if_neg (by simp [pmloMagic])]
  rw [if_neg (by simp [pmloMagic])]
  rw [if_neg (by simp [pmloMagic])]
  rw [if_pos (by simp [pmloMagic, byteAt, hv])]

theorem readIndexData_bad_count (d entries : List Nat) (n : Nat)
    (hne : n ≠ d.length) (hn : n < 2 ^ 64) (hd : d.length < 2 ^ 64) :
    readIndexData (pmloMagic ++ 1 :: (le64 d.length ++ (d ++ (le64 n ++ entries))))
      = .error .formatError := by
  have hble : readLe64 (le64 d.length ++ (d ++ (le64 n ++ entries))) = d.length :=
    readLe64_le64 d.length _ hd
  have hdrop8 : (le64 d.length ++ (d ++ (le64 n ++ entries))).drop 8
      = d ++ (le64 n ++ entries) := by
    rw [show (8 : Nat) = (le64 d.length).length by simp [le64_length], List.drop_left]
  have hdropd : (d ++ (le64 n ++ entries)).drop d.length = le64 n ++ entries :=
    List.drop_left d _
  have hele : readLe64 (le64 n ++ entries) = n := readLe64_le64 n _ hn
  have hs2len : (le64 d.length ++ (d ++ (le64 n ++ entries))).length
      = 8 + (d.length + (8 + entries.length)) := by
    rw [List.length_append, List.length_append, List.length_append, le64_length, le64_length]
  have h3l : (d ++ (le64 n ++ entries)).length = d.length + (8 + entries.length) := by
    rw [List.length_append, List.length_append, le64_length]
  have h4l : (le64 n ++ entries).length = 8 + entries.length := by
    rw [List.length_append, le64_length]
  rw [show pmloMagic ++ 1 :: (le64 d.length ++ (d ++ (le64 n ++ entries)))
      = 80 :: 77 :: 76 :: 79 :: 1 :: (le64 d.length ++ (d ++ (le64 n ++ entries)))
    by simp [pmloMagic]]
  rw [readIndexData]
  rw [if_neg (by simp)]
  rw [if_neg (by simp [pmloMagic])]
  rw [if_neg (by simp)]
  rw [if_neg (by simp [byteAt])]
  simp only [List.drop_succ_cons, List.drop_zero]
  rw [if_neg (by rw [hs2len]; omega)]
  simp only [hble, hdrop8]
  rw [if_neg (by rw [h3l]; omega)]
  simp only [hdropd, hele]
  rw [if_neg (by rw [h4l]; omega)]
  rw [if_pos hne]

theorem writeIndexData_take5 (idx : PIndex) :
    (writeIndexData idx).take 5 = pmloMagic ++ [1] := by
  simp [writeIndexData, pmloMagic]

theorem writeIndexData_count_field (idx : PIndex) :
    slice (writeIndexData idx) (13 + idx.data.length) (21 + idx.data.length)
      = le64 idx.sa.length := by
  have hre : writeIndexData idx = (pmloMagic ++ [1] ++ le64 idx.data.length ++ idx.data)
      ++ (le64 idx.sa.length ++ (idx.sa.map le64).flatten) := by
    simp [writeIndexData, List.append_assoc]
  have hXl : (pmloMagic ++ [1] ++ le64 idx.data.length ++ idx.data).length
      = 13 + idx.data.length := by
    simp [pmloMagic, le64_length]
    omega
  have := slice_middle (pmloMagic ++ [1] ++ le64 idx.data.length ++ idx.data)
    (le64 idx.sa.length) ((idx.sa.map le64).flatten)
  rw [hXl, le64_length] at this
  rw [hre, show 21 + idx.data.length = 13 + idx.data.length + 8 by omega]
  exact this

end Pomelo

namespace Pomelo

/-!  ### Claim theorems  -/

/-- C1 (amended): a record survives Build iff its raw key length fits
`maxLength` and, when a tab is present, its weight text parses as a decimal
`uint32` of at least `minValue`; a tab-less line is retained with weight 0
regardless of `minValue`.  Consequently the Scenario A lines with
`maxLength = 120, minValue = 1000` retain TWO records — alice (5000) and
alice2 (0) — and drop only bob. -/
theorem c1_filtering :
    (∀ (maxLength minValue : Nat) (line : List Nat),
      (processLine maxLength minValue line).isSome = true
        ↔ survivesSpec maxLength minValue line) ∧
    (∀ (maxLength minValue : Nat) (line : List Nat) (kv : List Nat × Nat),
      processLine maxLength minValue line = some kv →
      ((splitTab line).2 = none → kv.2 = 0)) ∧
    buildCount id 120 1000 scenarioLines = 2 ∧
    retainedRecs id 120 1000 scenarioLines
      = [⟨[97, 108, 105, 99, 101], 5000⟩, ⟨[97, 108, 105, 99, 101, 50], 0⟩] := by
  refine ⟨?_, ?_, by decide, by decide⟩
  · intro ml mv line
    simp only [processLine, survivesSpec]
    cases hsplit : (splitTab line).2 with
    | none =>
      simp only [hsplit, processTail]
      constructor
      · intro h
        split at h
        · simp at h
        · exact ⟨by omega, by simp⟩
      · rintro ⟨h1, _⟩
        rw [if_neg (by omega)]
        simp
    | some wtxt =>
      simp only [hsplit, processTail]
      cases hp : parseUint32 wtxt with
      | none =>
        simp only [hp, processParsed]
        constructor
        · intro h
          simp at h
        · rintro ⟨h1, h2⟩
          rcases h2 wtxt rfl with ⟨v, hv, _⟩
          simp [hp] at hv
      | some v =>
        simp only [hp, processParsed]
        constructor
        · intro h
          by_cases h1 : v < mv
          · rw [if_pos h1] at h
            simp at h
          · rw [if_neg h1] at h
            by_cases h2 : (splitTab line).1.length > ml
            · rw [if_pos h2] at h
              simp at h
            · refine ⟨by omega, fun wt hw => ?_⟩
              injection hw with hw
              subst hw
              exact ⟨v, hp, by omega⟩
        · rintro ⟨h1, h2⟩
          rcases h2 wtxt rfl with ⟨v', hv', hge⟩
          have hvv : v' = v := by
            rw [hp] at hv'
            injection hv' with hv''
            exact hv''.symm
          subst hvv
          rw [if_neg (by omega), if_neg (by omega)]
          simp
  · intro ml mv line kv hkv hnone
    simp only [processLine, hnone, processTail] at hkv
    split at hkv
    · simp at hkv
    · injection hkv with hkv
      rw [← hkv]

/-- Witness for C1 at the concrete line "a\t5000". -/
theorem c1_filtering_witness :
    survivesSpec 120 1000 [97, 9, 53, 48, 48, 48] :=
  (c1_filtering.1 120 1000 [97, 9, 53, 48, 48, 48]).mp (by decide)

/-- C1 counterexample: the claim's Scenario A asserts retained_count = 1, but
the build retains 2 records — the tab-less "alice2" is kept with weight 0
even though 0 < 1000. -/
theorem c1_counterexample :
    buildCount id 120 1000 scenarioLines ≠ 1 ∧
    buildCount id 120 1000 scenarioLines = 2 ∧
    Rec.mk [97, 108, 105, 99, 101, 50] 0 ∈ retainedRecs id 120 1000 scenarioLines := by
  refine ⟨by decide, by decide, by decide⟩

/-- C6: an untrusted caller's load or unload always fails Forbidden and the
registry mapping is returned unchanged. -/
theorem c6_trust_gate :
    ∀ (key path : String) (formOk : Bool) (fs : String → Option (List Nat)) (reg : Registry),
      unloadHandler false key reg = (reg, HStatus.forbidden) ∧
      loadHandler false formOk fs path key reg = (reg, HStatus.forbidden) := by
  intro key path formOk fs reg
  constructor <;> rfl

/-- C7: the derived registry key of a keyless load is the lowercase hex of the
CRC-32 of the file content, hence identical across loads of identical
content. -/
theorem c7_derived_key :
    ∀ (fs1 fs2 : String → Option (List Nat)) (p1 p2 : String) (content : List Nat)
      (reg1 reg2 : Registry),
      fs1 p1 = some content → fs2 p2 = some content →
      (loadIndex fs1 p1 "" reg1).1 = (loadIndex fs2 p2 "" reg2).1 ∧
      (loadIndex fs1 p1 "" reg1).1 = natToHex (crc32 content) := by
  intro fs1 fs2 p1 p2 content reg1 reg2 h1 h2
  have e : ∀ (fs : String → Option (List Nat)) (p : String) (reg : Registry),
      fs p = some content → (loadIndex fs p "" reg).1 = natToHex (crc32 content) := by
    intro fs p reg h
    simp only [loadIndex, h]
    cases readIndexData content <;> simp
  exact ⟨(e fs1 p1 reg1 h1).trans (e fs2 p2 reg2 h2).symm, e fs1 p1 reg1 h1⟩

/-- Witness for C7 on content [49]. -/
theorem c7_derived_key_witness :
    (loadIndex (fun _ => some [49]) "f" "" []).1 = (loadIndex (fun _ => some [49]) "g" "" []).1 ∧
    (loadIndex (fun _ => some [49]) "f" "" []).1 = natToHex (crc32 [49]) :=
  c7_derived_key (fun _ => some [49]) (fun _ => some [49]) "f" "g" [49] [] [] rfl rfl

/-- C3 counterexample: loading readable but malformed content under key "k"
returns an error, yet the registry now contains an entry under "k" bound to
the empty index — the failed load DID mutate the registry. -/
theorem c3_counterexample :
    (loadIndex c3fs "f" "k" []).2.2 ≠ none ∧
    (loadIndex c3fs "f" "k" []).2.1 = [("k", PIndex.mk [] [])] := by
  refine ⟨by decide, by decide⟩

/-- C3 (amended): when the file is unreadable the registry is unchanged, but
when the persisted data is malformed the error is returned AFTER an entry
holding an empty index has already been installed under the resolved key. -/
theorem c3_load_failure :
    ∀ (fs : String → Option (List Nat)) (src key : String) (reg : Registry),
      (fs src = none → loadIndex fs src key reg = ("", reg, some StoreErr.ioError)) ∧
      (∀ (content : List Nat) (e : StoreErr), fs src = some content →
        readIndexData content = .error e →
        loadIndex fs src key reg =
          (resolvedKey key content,
           regInsert reg (resolvedKey key content) ⟨[], []⟩, some e)) := by
  intro fs src key reg
  constructor
  · intro h
    simp [loadIndex, h]
  · intro content e h hread
    simp [loadIndex, h, hread, resolvedKey]

/-- Witness for C3 at the concrete malformed file system `c3fs`. -/
theorem c3_load_failure_witness :
    loadIndex c3fs "g" "k" [] = ("", [], some StoreErr.ioError) ∧
    loadIndex c3fs "f" "k" []
      = (resolvedKey "k" [1, 2, 3],
         regInsert [] (resolvedKey "k" [1, 2, 3]) ⟨[], []⟩, some StoreErr.ioError) :=
  ⟨(c3_load_failure c3fs "g" "k" []).1 (by decide),
   (c3_load_failure c3fs "f" "k" []).2 [1, 2, 3] StoreErr.ioError (by decide) rfl⟩

end Pomelo

namespace Pomelo

/-- C4: the persisted index stream begins with the 4-byte magic "PMLO" and a
version byte of value 1, the entry-count field is the 8-byte LE encoding of
the suffix-array length — equal to the buffer length for a built index —, a
well-formed stream round-trips through load, and load rejects magic, version
and count mismatches with FormatError. -/
theorem c4_store_format :
    (∀ idx : PIndex, (writeIndexData idx).take 5 = pmloMagic ++ [1]) ∧
    (∀ idx : PIndex,
      slice (writeIndexData idx) (13 + idx.data.length) (21 + idx.data.length)
        = le64 idx.sa.length) ∧
    (∀ buffer : List Nat,
      slice (writeIndexData (buildPIndex buffer)) (13 + buffer.length) (21 + buffer.length)
        = le64 buffer.length) ∧
    (∀ idx : PIndex, idx.data.length < 2 ^ 64 → (∀ e ∈ idx.sa, e < 2 ^ 64) →
      idx.sa.length = idx.data.length →
      readIndexData (writeIndexData idx) = .ok idx) ∧
    (∀ s : List Nat, 4 ≤ s.length → s.take 4 ≠ pmloMagic →
      readIndexData s = .error .formatError) ∧
    (∀ (v : Nat) (rest : List Nat), v ≠ 1 →
      readIndexData (pmloMagic ++ v :: rest) = .error .formatError) ∧
    (∀ (d entries : List Nat) (n : Nat), n ≠ d.length → n < 2 ^ 64 → d.length < 2 ^ 64 →
      readIndexData (pmloMagic ++ 1 :: (le64 d.length ++ (d ++ (le64 n ++ entries))))
        = .error .formatError) := by
  refine ⟨writeIndexData_take5, writeIndexData_count_field, ?_, readIndexData_write,
    readIndexData_bad_magic, readIndexData_bad_version, readIndexData_bad_count⟩
  intro buffer
  have := writeIndexData_count_field (buildPIndex buffer)
  simpa [buildPIndex, suffixArray_length] using this

/-- Witness for C4: round-trip and the two FormatError rejections at concrete
streams. -/
theorem c4_store_format_witness :
    readIndexData (writeIndexData ⟨[97], [0]⟩) = .ok ⟨[97], [0]⟩ ∧
    readIndexData (pmloMagic ++ 2 :: [0]) = .error .formatError ∧
    readIndexData [0, 0, 0, 0] = .error .formatError :=
  ⟨c4_store_format.2.2.2.1 ⟨[97], [0]⟩ (by norm_num) (by decide) (by decide),
   c4_store_format.2.2.2.2.2.1 2 [0] (by decide),
   c4_store_format.2.2.2.2.1 [0, 0, 0, 0] (by decide) (by decide)⟩

/-- C10: the query handler answers BadRequest iff the index key is empty or
unknown or the first `q` value is empty; otherwise every `q` value — later
empty ones included — is passed to lookup, and an empty pattern matches at
every buffer offset, capped at 2048. -/
theorem c10_query_validation :
    (∀ (reg : Registry) (key : String) (qvals : List (List Nat)),
      queryHandler reg key qvals = .error HStatus.badRequest
        ↔ (key = "" ∨ regFind reg key = none ∨ qvals.headD [] = [])) ∧
    (∀ (reg : Registry) (key : String) (qvals : List (List Nat)) (idx : PIndex),
      regFind reg key = some idx → key ≠ "" → qvals.headD [] ≠ [] →
      queryHandler reg key qvals
        = .ok (qvals.map fun q => indexLookup idx.data idx.sa q)) ∧
    (∀ data sa : List Nat, saLookup data sa [] = sa.take maxLookup) ∧
    (∀ (data : List Nat) (i : Nat), i < data.length → matchesAt data i [] = true) ∧
    (∀ data : List Nat,
      (saLookup data (suffixArray data) []).length = min maxLookup data.length) := by
  have hsw : ∀ l : List Nat, startsWith l [] = true := by
    intro l
    cases l <;> rfl
  have hsa : ∀ data sa : List Nat, saLookup data sa [] = sa.take maxLookup := by
    intro data sa
    unfold saLookup
    congr 1
    apply List.filter_eq_self.mpr
    intro a _
    exact hsw _
  refine ⟨?_, ?_, hsa, ?_, ?_⟩
  · intro reg key qvals
    unfold queryHandler
    cases hf : regFind reg key with
    | none => simp
    | some idx =>
      by_cases hk : key = ""
      · simp [hk]
      · by_cases hq : qvals.headD [] = []
        · simp [hk, hq]
        · simp [hk, hq]
  · intro reg key qvals idx hf hk hq
    unfold queryHandler
    rw [hf]
    rw [List.headD_eq_head?_getD] at hq
    simp [hk, hq]
  · intro data i _
    unfold matchesAt
    exact hsw _
  · intro data
    rw [hsa, List.length_take, suffixArray_length]

/-- Witness for C10 at a one-entry registry and a singleton buffer. -/
theorem c10_query_validation_witness :
    (queryHandler [("k", ⟨[97], [0]⟩)] "k" [[]] = .error HStatus.badRequest
      ↔ (("k" : String) = "" ∨ regFind [("k", ⟨[97], [0]⟩)] "k" = none
          ∨ ([[]] : List (List Nat)).headD [] = [])) ∧
    queryHandler [("k", ⟨[97], [0]⟩)] "k" [[97], []]
      = .ok ([[97], []].map fun q => indexLookup [97] [0] q) ∧
    matchesAt [97] 0 [] = true :=
  ⟨c10_query_validation.1 [("k", ⟨[97], [0]⟩)] "k" [[]],
   c10_query_validation.2.1 [("k", ⟨[97], [0]⟩)] "k" [[97], []] ⟨[97], [0]⟩
     (by decide) (by decide) (by decide),
   c10_query_validation.2.2.2.1 [97] 0 (by decide)⟩

end Pomelo

namespace Pomelo

theorem uvarintBytes_length_of_lt :
    ∀ (k w : Nat), w < 2 ^ (7 * (k + 1)) → (uvarintBytes w).length ≤ k + 1 := by
  intro k
  induction k with
  | zero =>
    intro w hw
    rw [uvarintBytes_unfold, if_pos (by omega : w < 128)]
    simp
  | succ k ih =>
    intro w hw
    rw [uvarintBytes_unfold]
    split
    · simp
    · have hlt : w / 128 < 2 ^ (7 * (k + 1)) := by
        rw [Nat.div_lt_iff_lt_mul (by omega : (0 : Nat) < 128)]
        calc w < 2 ^ (7 * (k + 2)) := hw
          _ = 2 ^ (7 * (k + 1)) * 128 := by
            rw [show 7 * (k + 2) = 7 * (k + 1) + 7 by ring, pow_add]
            norm_num
      have := ih (w / 128) hlt
      simp only [List.length_cons]
      omega

theorem uvarintBytes_length_le10 (w : Nat) (hw : w < 2 ^ 64) :
    (uvarintBytes w).length ≤ 10 := by
  have := uvarintBytes_length_of_lt 9 w (by
    calc w < 2 ^ 64 := hw
      _ ≤ 2 ^ (7 * (9 + 1)) := by norm_num)
  omega

/-- C9: the build loop appends a fixed-width 10-byte weight slot per retained
record — the varint followed by whatever bytes the previous encoding left in
the reused buffer, not a minimal-length varint — and lookup decodes the
weight from the fixed 10 bytes immediately preceding the recovered record
boundary. -/
theorem c9_slot_reuse :
    (∀ (nfc : List Nat → List Nat) (maxLength minValue : Nat) (lines : List (List Nat)),
      buildBuffer nfc maxLength minValue lines
        = encodeWithSlots (retainedRecs nfc maxLength minValue lines) (List.replicate 10 0)) ∧
    (∀ (w : Nat) (prev : List Nat), w < 2 ^ 64 → prev.length = 10 →
      (writeSlot w prev).length = 10) ∧
    (∀ (w : Nat) (prev : List Nat),
      (writeSlot w prev).drop (uvarintBytes w).length
        = prev.drop (uvarintBytes w).length) ∧
    (∀ (data : List Nat) (offset : Nat) (it : Item),
      recoverItem data offset = some it →
      10 ≤ consume data (scanFwd data offset) - offset ∧
      it.value = uvarint (slice data (consume data (scanFwd data offset) - 10)
        (consume data (scanFwd data offset)))) := by
  refine ⟨?_, ?_, ?_, ?_⟩
  · intro nfc maxLength minValue lines
    unfold buildBuffer buildIndex
    simpa using (build_general nfc maxLength minValue lines 0 [] (List.replicate 10 0)).2
  · intro w prev hw hlen
    have hv : (uvarintBytes w).length ≤ 10 := uvarintBytes_length_le10 w hw
    simp [writeSlot, hlen]
    omega
  · intro w prev
    unfold writeSlot
    rw [List.drop_left]
  · intro data offset it h
    simp only [recoverItem] at h
    split at h
    · simp at h
    · rename_i hcond
      injection h with h
      subst h
      exact ⟨by omega, rfl⟩

/-- Witness for C9 at concrete slots and a concrete one-record buffer. -/
theorem c9_slot_reuse_witness :
    buildBuffer id 120 1000 scenarioLines
      = encodeWithSlots (retainedRecs id 120 1000 scenarioLines) (List.replicate 10 0) ∧
    (writeSlot 5 (List.replicate 10 0)).length = 10 ∧
    (writeSlot 5 (List.replicate 10 0)).drop (uvarintBytes 5).length
      = (List.replicate 10 0).drop (uvarintBytes 5).length ∧
    (10 ≤ consume (encRec ⟨[97], 5⟩) (scanFwd (encRec ⟨[97], 5⟩) 0) - 0 ∧
     (Item.mk [97] 5).value = uvarint (slice (encRec ⟨[97], 5⟩)
        (consume (encRec ⟨[97], 5⟩) (scanFwd (encRec ⟨[97], 5⟩) 0) - 10)
        (consume (encRec ⟨[97], 5⟩) (scanFwd (encRec ⟨[97], 5⟩) 0)))) :=
  ⟨c9_slot_reuse.1 id 120 1000 scenarioLines,
   c9_slot_reuse.2.1 5 (List.replicate 10 0) (by norm_num) (by decide),
   c9_slot_reuse.2.2.1 5 (List.replicate 10 0),
   c9_slot_reuse.2.2.2 (encRec ⟨[97], 5⟩) 0 ⟨[97], 5⟩ (by decide)⟩

end Pomelo

namespace Pomelo

/-- C2 (amended): substring completeness holds for a built index provided
every retained record is well-formed — non-empty key free of delimiter
bytes, positive weight (below `2^32`) — and the varint widths of the retained
weights never shrink from one record to the next, so that the reused slot
buffer carries no stale non-zero bytes.  Then for every retained record with
key K and every non-empty substring P of K, if P matches at no more than 2048
offsets buffer-wide, lookup on P returns an item with key text K and the
record's weight. -/
theorem c2_substring_completeness
    (nfc : List Nat → List Nat) (ml mv : Nat) (lines : List (List Nat))
    (hwf : ∀ r ∈ retainedRecs nfc ml mv lines, wfRec r)
    (hchain : List.Chain' (fun a b => (uvarintBytes a.w).length ≤ (uvarintBytes b.w).length)
      (retainedRecs nfc ml mv lines))
    (r : Rec) (hr : r ∈ retainedRecs nfc ml mv lines)
    (P pre post : List Nat) (hk : r.key = pre ++ P ++ post) (hP : P ≠ [])
    (hcap : matchCount (buildBuffer nfc ml mv lines) P ≤ maxLookup) :
    Item.mk r.key r.w ∈ indexLookup (buildBuffer nfc ml mv lines)
      (suffixArray (buildBuffer nfc ml mv lines)) P := by
  have hlen : ∀ r' ∈ retainedRecs nfc ml mv lines, (uvarintBytes r'.w).length ≤ 10 := by
    intro r' hr'
    have h32 := (hwf r' hr').2.2.2
    have := uvarintBytes_length_le6 r'.w h32
    omega
  rw [buildBuffer_eq nfc ml mv lines hlen hchain] at hcap ⊢
  exact lookup_complete_core _ hwf r hr P pre post hk hP hcap

/-- Witness for C2 on the single line "ab\t5000" with substring "b". -/
theorem c2_substring_completeness_witness :
    Item.mk [97, 98] 5000 ∈ indexLookup (buildBuffer id 120 1000 [c2GoodLine])
      (suffixArray (buildBuffer id 120 1000 [c2GoodLine])) [98] :=
  c2_substring_completeness id 120 1000 [c2GoodLine] (by decide)
    (by rw [show retainedRecs id 120 1000 [c2GoodLine] = [⟨[97, 98], 5000⟩] by decide]
        exact List.chain'_singleton _)
    ⟨[97, 98], 5000⟩ (by decide) [98] [97] [] (by decide) (by decide) (by decide)

/-- C2 counterexample: the claim as stated fails.  Build "x\t4294967295" then
the tab-less line "b": the record ("b", weight 0) is retained, the pattern
"b" is a non-empty substring of its key matching at exactly one offset
(1 ≤ 2048), yet lookup on "b" returns no item at all: the forward scan stops
at the zero first byte of the weight-0 varint, the stale non-zero byte behind
it stops the delimiter consumption, and the recovered segment (1 byte) is
shorter than 10, so the match is skipped. -/
theorem c2_counterexample :
    Rec.mk [98] 0 ∈ retainedRecs id 120 1000 c2Lines ∧
    matchCount (buildBuffer id 120 1000 c2Lines) [98] = 1 ∧
    ([98] : List Nat) ≠ [] ∧
    ([98] : List Nat) = [] ++ [98] ++ [] ∧
    indexLookup (buildBuffer id 120 1000 c2Lines)
      (suffixArray (buildBuffer id 120 1000 c2Lines)) [98] = [] := by
  refine ⟨by decide, by decide, by decide, by decide, by decide⟩

end Pomelo

namespace Pomelo

theorem length_filterMap_of_all {α β : Type} (f : α → Option β) (l : List α)
    (h : ∀ x ∈ l, (f x).isSome = true) : (l.filterMap f).length = l.length := by
  induction l with
  | nil => simp
  | cons a l ih =>
    have ha := h a (by simp)
    cases hfa : f a with
    | none =>
      rw [hfa] at ha
      simp at ha
    | some b =>
      rw [List.filterMap_cons, hfa]
      simp only [List.length_cons]
      rw [ih (fun x hx => h x (by simp [hx]))]

theorem matchesAt_single (data : List Nat) (i b : Nat) :
    matchesAt data i [b] = true ↔ i < data.length ∧ byteAt data i = b := by
  unfold matchesAt
  rw [startsWith_iff]
  constructor
  · rintro ⟨t, ht⟩
    have hlen : i < data.length := by
      by_contra hge
      rw [List.drop_eq_nil_of_le (by omega)] at ht
      simp at ht
    refine ⟨hlen, ?_⟩
    rw [List.drop_eq_getElem_cons hlen] at ht
    simp only [List.cons_append, List.nil_append, List.cons.injEq] at ht
    rw [byteAt, List.getD_eq_getElem?_getD, List.getElem?_eq_getElem hlen]
    simp [ht.1]
  · rintro ⟨hlen, hb⟩
    refine ⟨data.drop (i + 1), ?_⟩
    rw [List.drop_eq_getElem_cons hlen]
    simp only [List.cons_append, List.nil_append]
    congr 1
    rw [byteAt, List.getD_eq_getElem?_getD, List.getElem?_eq_getElem hlen] at hb
    simpa using hb

theorem matchesAt_shift (X Y p : List Nat) (j : Nat) :
    matchesAt (X ++ Y) (X.length + j) p = matchesAt Y j p := by
  unfold matchesAt
  rw [List.drop_append]

theorem matchCount_append_single (X Y : List Nat) (b : Nat) :
    matchCount (X ++ Y) [b] = matchCount X [b] + matchCount Y [b] := by
  unfold matchCount
  rw [List.length_append, List.range_add, List.countP_append]
  congr 1
  · apply List.countP_congr
    intro i hi
    rw [List.mem_range] at hi
    rw [matchesAt_single, matchesAt_single, byteAt_append_left X Y i hi]
    constructor
    · rintro ⟨-, h2⟩
      exact ⟨hi, h2⟩
    · rintro ⟨-, h2⟩
      refine ⟨?_, h2⟩
      rw [List.length_append]
      omega
  · rw [List.countP_map]
    apply List.countP_congr
    intro j hj
    simp only [Function.comp]
    rw [matchesAt_shift]

theorem matchCount_replicate_c5 :
    ∀ n, matchCount (recsData (List.replicate n c5Rec)) [97] = 2 * n := by
  intro n
  induction n with
  | zero => simp [recsData, matchCount]
  | succ n ih =>
    rw [List.replicate_succ, recsData_cons, matchCount_append_single, ih]
    have hblk : matchCount (encRec c5Rec) [97] = 2 := by decide
    omega

theorem filterMap_replicate {α β : Type} (f : α → Option β) (x : α) (y : β)
    (h : f x = some y) : ∀ n, (List.replicate n x).filterMap f = List.replicate n y := by
  intro n
  induction n with
  | zero => simp
  | succ n ih =>
    rw [List.replicate_succ, List.filterMap_cons, h, ih, List.replicate_succ]

theorem retainedRecs_c5 : retainedRecs id 120 1000 c5Lines = List.replicate 1025 c5Rec := by
  unfold retainedRecs c5Lines
  exact filterMap_replicate _ c5Line c5Rec (by decide) 1025

theorem chain'_replicate {α : Type} (R : α → α → Prop) (x : α) (h : R x x) :
    ∀ n, List.Chain' R (List.replicate n x) := by
  intro n
  induction n with
  | zero => simp
  | succ n ih =>
    cases n with
    | zero => simp
    | succ m =>
      rw [List.replicate_succ, List.replicate_succ]
      refine List.chain'_cons.mpr ⟨h, ?_⟩
      rw [← List.replicate_succ]
      exact ih

theorem recsData_decompose (rs : List Rec) (o : Nat) (ho : o < (recsData rs).length) :
    ∃ rs1 r rs2 t, rs = rs1 ++ r :: rs2 ∧ o = (recsData rs1).length + t
      ∧ t < (encRec r).length := by
  induction rs generalizing o with
  | nil => simp [recsData] at ho
  | cons r rs ih =>
    rw [recsData_cons, List.length_append] at ho
    by_cases hlt : o < (encRec r).length
    · exact ⟨[], r, rs, o, by simp, by simp [recsData], hlt⟩
    · obtain ⟨t1, rfl⟩ : ∃ t1, o = (encRec r).length + t1 := ⟨o - (encRec r).length, by omega⟩
      rcases ih t1 (by omega) with ⟨rs1, r', rs2, t, he, ho', ht⟩
      refine ⟨r :: rs1, r', rs2, t, by rw [he, List.cons_append], ?_, ht⟩
      rw [recsData_cons, List.length_append]
      omega

theorem byteAt_mid (A enc B : List Nat) (t : Nat) (ht : t < enc.length) :
    byteAt (A ++ enc ++ B) (A.length + t) = byteAt enc t := by
  rw [List.append_assoc, byteAt_append_right]
  exact byteAt_append_left enc B t ht

/-- C5: lookup returns at most 2048 items for every index and pattern; and for
the build of 1025 copies of "aa\t1000" — whose buffer holds 2050 occurrences
of the pattern "a" — looking up "a" yields exactly 2048 results, without an
error. -/
theorem c5_match_cap :
    (∀ data sa p : List Nat, (indexLookup data sa p).length ≤ 2048) ∧
    matchCount (buildBuffer id 120 1000 c5Lines) [97] = 2050 ∧
    (indexLookup (buildBuffer id 120 1000 c5Lines)
      (suffixArray (buildBuffer id 120 1000 c5Lines)) [97]).length = 2048 := by
  have hlen5 : ∀ r ∈ retainedRecs id 120 1000 c5Lines, (uvarintBytes r.w).length ≤ 10 := by
    intro r hr
    rw [retainedRecs_c5] at hr
    rw [List.eq_of_mem_replicate hr]
    decide
  have hch5 : List.Chain' (fun a b => (uvarintBytes a.w).length ≤ (uvarintBytes b.w).length)
      (retainedRecs id 120 1000 c5Lines) := by
    rw [retainedRecs_c5]
    exact chain'_replicate
      (fun a b => (uvarintBytes a.w).length ≤ (uvarintBytes b.w).length) c5Rec
      (le_refl _) 1025
  have hbuf : buildBuffer id 120 1000 c5Lines = recsData (List.replicate 1025 c5Rec) := by
    rw [buildBuffer_eq id 120 1000 c5Lines hlen5 hch5, retainedRecs_c5]
  have hcount : matchCount (buildBuffer id 120 1000 c5Lines) [97] = 2050 := by
    rw [hbuf, matchCount_replicate_c5]
  refine ⟨fun data sa p => indexLookup_length_le data sa p, hcount, ?_⟩
  rw [hbuf]
  have hall : ∀ o ∈ saLookup (recsData (List.replicate 1025 c5Rec))
      (suffixArray (recsData (List.replicate 1025 c5Rec))) [97],
      (recoverItem (recsData (List.replicate 1025 c5Rec)) o).isSome = true := by
    intro o hoin
    have hof : o ∈ (suffixArray (recsData (List.replicate 1025 c5Rec))).filter
        (fun i => matchesAt (recsData (List.replicate 1025 c5Rec)) i [97]) :=
      List.mem_of_mem_take hoin
    rw [List.mem_filter] at hof
    have hmatch := hof.2
    rw [matchesAt_single] at hmatch
    rcases hmatch with ⟨holt, hbyte⟩
    rcases recsData_decompose _ o holt with ⟨rs1, r, rs2, t, hsplit, hot, htlt⟩
    have hr : r = c5Rec := by
      have : r ∈ List.replicate 1025 c5Rec := by
        rw [hsplit]
        simp
      exact List.eq_of_mem_replicate this
    subst hr
    have hdata2 : recsData (List.replicate 1025 c5Rec)
        = recsData rs1 ++ encRec c5Rec ++ recsData rs2 := by
      rw [hsplit, recsData_append, recsData_cons, ← List.append_assoc]
    have hbt : byteAt (encRec c5Rec) t = 97 := by
      rw [hot, hdata2, byteAt_mid _ _ _ t htlt] at hbyte
      exact hbyte
    have ht2 : t < 2 := by
      have hforall : ∀ t', t' < 13 → byteAt (encRec c5Rec) t' = 97 → t' < 2 := by decide
      refine hforall t ?_ hbt
      have h13 : (encRec c5Rec).length = 13 := by decide
      omega
    have hmemall : ∀ r', (r' ∈ rs1 ∨ r' ∈ rs2) → r' = c5Rec := by
      intro r' h
      have hmem : r' ∈ List.replicate 1025 c5Rec := by
        rw [hsplit]
        rcases h with h | h
        · exact List.mem_append_left _ h
        · exact List.mem_append_right _ (List.mem_cons_of_mem _ h)
      exact List.eq_of_mem_replicate hmem
    have hA : recsData rs1 = [] ∨ ∃ C, recsData rs1 = C ++ [0] := by
      cases rs1 with
      | nil =>
        left
        simp [recsData]
      | cons a l =>
        right
        exact recsData_ends (a :: l) (by simp)
    have hB : recsData rs2 = [] ∨ byteAt (recsData rs2) 0 ≠ 0 := by
      cases rs2 with
      | nil =>
        left
        simp [recsData]
      | cons a l =>
        right
        apply recsData_head_ne_zero (a :: l) ?_ (by simp)
        intro r' hr'
        rw [hmemall r' (Or.inr hr')]
        decide
    have hrec := recover_at_key (recsData rs1) (recsData rs2) [97, 97] 1000 t
      (by decide) (by norm_num) (by norm_num) (by simpa using ht2) hA hB
    rw [hot, hdata2]
    rw [show encRec c5Rec = encRec ⟨[97, 97], 1000⟩ from rfl]
    rw [hrec]
    rfl
  have hlookuplen : (saLookup (recsData (List.replicate 1025 c5Rec))
      (suffixArray (recsData (List.replicate 1025 c5Rec))) [97]).length = 2048 := by
    unfold saLookup
    rw [List.length_take, filter_suffixArray_length, matchCount_replicate_c5 1025]
    decide
  unfold indexLookup
  rw [length_filterMap_of_all _ _ hall, hlookuplen]

end Pomelo
